import Mathlib

/-!
# Verification of the `json-parser` source-mapped JSON parser

This file gives a shallow embedding of the parser's core (the canonical
source variant: the file exporting `tokenize`/`parse` with `url`-stamped
errors, unicode escapes and 1-based positions) and settles the claims of
the specification against it.

Modelling conventions:
* JS strings are modelled as Lean `String` / `List Char`; `for (const c of s)`
  iterates code points, matching Lean `Char`.
* JS numbers are modelled exactly, as `ℚ` plus signed infinity
  (`JsNumber`).  `parseFloat` is modelled by `parseFloatQ`, the
  longest-prefix `StrDecimalLiteral` parse of ECMA-262, computing the exact
  rational value (no IEEE rounding: rounding is identical on both sides of
  every comparison made here, so equalities are preserved).
* `String.fromCharCode` is modelled by `Char.ofNat` (the code only ever
  passes values `< 2^16`; a lone-surrogate code unit, which Lean's `Char`
  cannot carry, falls back to `Char.ofNat`'s default — no claim below
  depends on that corner).
* The error `kind` strings of the source (`"syntax"` / `"structure"`) are
  the constructors `ErrKind.lexical` / `ErrKind.structural`.
* The callback-based error reporting of the source is modelled by
  returning the reported errors, in reporting order; a generic
  accumulator-threading variant (`parseCB`) and an abort-on-first-error
  variant (`parseThrow`) model arbitrary callbacks and the throwing
  default callback.
-/

namespace JsonParser

/-- `FilePosition` of `@ts-common/source-map`: 1-based line/column. -/
structure FilePosition where
  line : Nat
  column : Nat
deriving DecidableEq, Repr

/-- `CharAndPosition` of `@ts-common/add-position`. -/
structure CharAndPosition where
  c : Char
  position : FilePosition
deriving DecidableEq, Repr

/-- `addPosition`: pairs every character with its (line, column), starting
at (1, 1); a newline advances the line and resets the column to 1, any
other character advances the column. -/
def addPositionAux : Nat → Nat → List Char → List CharAndPosition
  | _, _, [] => []
  | l, col, ch :: rest =>
    ⟨ch, ⟨l, col⟩⟩ ::
      (if ch = '\n' then addPositionAux (l + 1) 1 rest
       else addPositionAux l (col + 1) rest)

def addPosition (s : String) : List CharAndPosition :=
  addPositionAux 1 1 s.data

/-- JS number values: exact rationals plus signed infinity.  (`NaN` is
represented by `Option` failure at the `parseFloat` model.) -/
inductive JsNumber where
  | finite (q : ℚ)
  | inf (neg : Bool)
deriving DecidableEq, Repr

/-- JSON primitive values (the `JsonPrimitive` of `@ts-common/json`). -/
inductive JsonPrim where
  | null
  | bool (b : Bool)
  | num (n : JsNumber)
  | str (s : String)
deriving DecidableEq, Repr

/-- JSON values.  Objects are insertion-ordered association lists, exactly
the observable behaviour of a JS plain object under string-keyed
assignment. -/
inductive Json where
  | null
  | bool (b : Bool)
  | num (n : JsNumber)
  | str (s : String)
  | obj (entries : List (String × Json))
  | arr (items : List Json)
deriving Repr

def JsonPrim.toJson : JsonPrim → Json
  | .null => .null
  | .bool b => .bool b
  | .num n => .num n
  | .str s => .str s

/-- `JsonToken`: a symbol token (one of `{ } [ ] , :`) or a value token. -/
inductive JsonToken where
  | sym (c : Char) (position : FilePosition)
  | value (v : JsonPrim) (position : FilePosition)
deriving DecidableEq, Repr

/-- The error `kind` tag: `lexical` is the source's `"syntax"`,
`structural` the source's `"structure"` (both renamed because the source
words are reserved in Lean). -/
inductive ErrKind where
  | lexical
  | structural
deriving DecidableEq, Repr

inductive ErrCode where
  | invalidToken
  | invalidSymbol
  | invalidEscapeSymbol
  | unexpectedEndOfString
  | unexpectedEndOfFile
  | unexpectedToken
  | expectingPropertyName
deriving DecidableEq, Repr

def ErrCode.text : ErrCode → String
  | .invalidToken => "invalid token"
  | .invalidSymbol => "invalid symbol"
  | .invalidEscapeSymbol => "invalid escape symbol"
  | .unexpectedEndOfString => "unexpected end of string"
  | .unexpectedEndOfFile => "unexpected end of file"
  | .unexpectedToken => "unexpected token"
  | .expectingPropertyName => "expecting property name"

/-- `ParseError` (`SyntaxError` / `StructureError` of the source). -/
structure ParseError where
  kind : ErrKind
  code : ErrCode
  position : FilePosition
  token : String
  message : String
  url : String
deriving DecidableEq, Repr

/-- The `message` format of the source's `report` helpers. -/
def errMessage (code : ErrCode) (token : String) (position : FilePosition) : String :=
  code.text ++ ", token: " ++ token ++ ", line: " ++ toString position.line
    ++ ", column: " ++ toString position.column

/-- The lexer's `report` helper. -/
def lexErr (url : String) (position : FilePosition) (token : String)
    (code : ErrCode) : ParseError :=
  { kind := .lexical, code, position, token
    message := errMessage code token position, url }

/-- The parser's `report` helper. -/
def structErr (url : String) (position : FilePosition) (token : String)
    (code : ErrCode) : ParseError :=
  { kind := .structural, code, position, token
    message := errMessage code token position, url }

/-! ## Character classes and tables of the lexer -/

/-- `isControl`: the first UTF-16 code unit is `≤ 0x1F` or `= 0x7F`.  (For
an astral code point the first unit is a high surrogate, which fails both
tests, as does testing the code point itself.) -/
def isControl (c : Char) : Bool :=
  c.toNat ≤ 0x1f || c.toNat = 0x7f

def isSymbolChar (c : Char) : Bool :=
  c = '{' || c = '}' || c = '[' || c = ']' || c = ',' || c = ':'

def isWhiteSpaceChar (c : Char) : Bool :=
  c = ' ' || c = '\t' || c = '\r' || c = '\n'

/-- The `jsonValue` character set of the source: the 52 ASCII letters,
the 10 digits, and `_ + - .` (written there as an explicit list). -/
def isJsonValueChar (c : Char) : Bool :=
  c.isAlpha || c.isDigit || c = '_' || c = '+' || c = '-' || c = '.'

/-- The `escapeMap` table. -/
def escapeMapF (c : Char) : Option Char :=
  if c = '"' then some '"'
  else if c = '\\' then some '\\'
  else if c = '/' then some '/'
  else if c = 'b' then some (Char.ofNat 0x08)
  else if c = 't' then some '\t'
  else if c = 'f' then some (Char.ofNat 0x0c)
  else if c = 'r' then some '\r'
  else if c = 'n' then some '\n'
  else none

/-- The `hexMap` table. -/
def hexMapF (c : Char) : Option Nat :=
  if '0' ≤ c ∧ c ≤ '9' then some (c.toNat - '0'.toNat)
  else if 'a' ≤ c ∧ c ≤ 'f' then some (c.toNat - 'a'.toNat + 10)
  else if 'A' ≤ c ∧ c ≤ 'F' then some (c.toNat - 'A'.toNat + 10)
  else none

/-! ## The model of `parseFloat`

ECMA-262 `parseFloat` parses the longest prefix of its argument that is a
`StrDecimalLiteral`: an optional sign, then `Infinity`, or decimal digits
with an optional fraction and an optional exponent (the exponent part is
only consumed when at least one exponent digit follows).  It returns `NaN`
(here: `none`) when no prefix parses.  The buffers the source feeds it
never contain whitespace (they are built from `jsonValue` characters), so
leading-whitespace-stripping is not modelled. -/

def digitVal (c : Char) : Option Nat :=
  if '0' ≤ c ∧ c ≤ '9' then some (c.toNat - '0'.toNat) else none

def takeDigits : List Char → List Nat × List Char
  | [] => ([], [])
  | c :: rest =>
    match digitVal c with
    | some d => let (ds, r) := takeDigits rest; (d :: ds, r)
    | none => ([], c :: rest)

def digitsToNat (ds : List Nat) : Nat :=
  ds.foldl (fun a d => a * 10 + d) 0

/-- The exact value of a decimal literal `[-] intDs . fracDs e exp`
(shared by the `parseFloat` model and the reference decoder: both denote
the exact mathematical value; the computation stays in integer
arithmetic so that proofs can evaluate it). -/
def decimalValue (neg : Bool) (intDs fracDs : List Nat) (exp : Int) : ℚ :=
  let m : Int := (digitsToNat intDs * 10 ^ fracDs.length + digitsToNat fracDs : ℕ)
  let m := if neg then -m else m
  match exp with
  | .ofNat e => mkRat (m * ((10 ^ e : ℕ) : Int)) (10 ^ fracDs.length)
  | .negSucc e => mkRat m (10 ^ fracDs.length * 10 ^ (e + 1))

/-- An optional leading sign (`+` accepted, as ECMA-262 does). -/
def parseFloatSign (cs : List Char) : Bool × List Char :=
  match cs with
  | c :: r =>
    if c = '+' then (false, r)
    else if c = '-' then (true, r)
    else (false, cs)
  | [] => (false, [])

/-- An optional exponent sign. -/
def expSign (r : List Char) : Bool × List Char :=
  match r with
  | c :: r2 =>
    if c = '+' then (false, r2)
    else if c = '-' then (true, r2)
    else (false, r)
  | [] => (false, [])

/-- The exponent part accepted by `parseFloat` at the head of `cs`:
consumed only when `e`/`E` is followed by an optional sign and at least
one digit. -/
def parseFloatExp (cs : List Char) : Int :=
  match cs with
  | e :: r =>
    if e = 'e' ∨ e = 'E' then
      match expSign r with
      | (eneg, r2) =>
        match takeDigits r2 with
        | ([], _) => 0
        | (ds, _) => if eneg then -(digitsToNat ds : Int) else (digitsToNat ds : Int)
    else 0
  | [] => 0

/-- The optional fraction part consumed by `parseFloat` (a bare `.` with
no digits is consumed with an empty digit list). -/
def parseFloatFrac (cs2 : List Char) : List Nat × List Char :=
  match cs2 with
  | c :: r => if c = '.' then takeDigits r else ([], cs2)
  | [] => ([], [])

/-- The `parseFloat` model (see the section comment). -/
def parseFloatQ (cs : List Char) : Option JsNumber :=
  match parseFloatSign cs with
  | (neg, cs1) =>
    if cs1.take 8 = "Infinity".data then some (.inf neg)
    else
      match takeDigits cs1 with
      | (intDs, cs2) =>
        match parseFloatFrac cs2 with
        | (fracDs, cs3) =>
          if intDs = [] ∧ fracDs = [] then none
          else some (.finite (decimalValue neg intDs fracDs (parseFloatExp cs3)))

/-! ## The lexer (`tokenize`)

The source is a finite automaton whose states are closures sharing a
mutable buffer; here each state is a constructor carrying its data.
`whiteSpaceState` is `ws`; `stringState`/`escapeState`/`unicodeState`
(sharing the buffer `val` and the opening-quote position `pos`) are
`strS`/`escS`/`uniS`; `jsonValueState` is `valS`. -/

inductive LexState where
  | ws
  | strS (pos : FilePosition) (val : String)
  | escS (pos : FilePosition) (val : String)
  | uniS (pos : FilePosition) (val : String) (i : Nat) (u : Nat)
  | valS (pos : FilePosition) (val : String)
deriving DecidableEq, Repr

structure LexStep where
  tokens : List JsonToken
  errors : List ParseError
  state : LexState
deriving DecidableEq, Repr

/-- `whiteSpaceState.next` (the dispatch order follows the source). -/
def wsNext (url : String) (cp : CharAndPosition) : LexStep :=
  if cp.c = '"' then ⟨[], [], .strS cp.position ""⟩
  else if isSymbolChar cp.c then ⟨[.sym cp.c cp.position], [], .ws⟩
  else if isJsonValueChar cp.c then ⟨[], [], .valS cp.position (String.singleton cp.c)⟩
  else if isWhiteSpaceChar cp.c then ⟨[], [], .ws⟩
  else ⟨[], [lexErr url cp.position (String.singleton cp.c) .invalidSymbol], .ws⟩

/-- `getResultValue` of `jsonValueState`: literal recognition, then
`parseFloat`; on `NaN` the raw text is the value and `invalid token` is
reported. -/
def getResultValue (url : String) (pos : FilePosition) (v : String) :
    JsonPrim × List ParseError :=
  if v = "true" then (.bool true, [])
  else if v = "false" then (.bool false, [])
  else if v = "null" then (.null, [])
  else
    match parseFloatQ v.data with
    | some n => (.num n, [])
    | none => (.str v, [lexErr url pos v .invalidToken])

/-- One `next` step of the lexer automaton. -/
def lexNext (url : String) (st : LexState) (cp : CharAndPosition) : LexStep :=
  match st with
  | .ws => wsNext url cp
  | .strS pos v =>
    if cp.c = '"' then ⟨[.value (.str v) pos], [], .ws⟩
    else
      let errs :=
        if isControl cp.c then
          [lexErr url cp.position (String.singleton cp.c) .invalidSymbol]
        else []
      if cp.c = '\\' then ⟨[], errs, .escS pos v⟩
      else ⟨[], errs, .strS pos (v.push cp.c)⟩
  | .escS pos v =>
    if cp.c = 'u' then ⟨[], [], .uniS pos v 0 0⟩
    else
      match escapeMapF cp.c with
      | some e => ⟨[], [], .strS pos (v.push e)⟩
      | none =>
        ⟨[], [lexErr url cp.position (String.singleton cp.c) .invalidEscapeSymbol],
          .strS pos (v.push cp.c)⟩
  | .uniS pos v i u =>
    match hexMapF cp.c with
    | none =>
      ⟨[], [lexErr url cp.position (String.singleton cp.c) .invalidEscapeSymbol],
        .strS pos v⟩
    | some h =>
      let u2 := u <<< 4 ||| h
      if i + 1 < 4 then ⟨[], [], .uniS pos v (i + 1) u2⟩
      else ⟨[], [], .strS pos (v.push (Char.ofNat u2))⟩
  | .valS pos v =>
    if isJsonValueChar cp.c then ⟨[], [], .valS pos (v.push cp.c)⟩
    else
      let (pv, errs) := getResultValue url pos v
      let rest := wsNext url cp
      ⟨.value pv pos :: rest.tokens, errs ++ rest.errors, rest.state⟩

/-- The `done` handler of the final state: string-family states report
`unexpected end of string` at the opening quote and still yield the
buffer; `jsonValueState` finalizes the buffer; `whiteSpaceState` yields
nothing. -/
def lexDone (url : String) (st : LexState) : List JsonToken × List ParseError :=
  match st with
  | .ws => ([], [])
  | .strS pos v => ([.value (.str v) pos], [lexErr url pos v .unexpectedEndOfString])
  | .escS pos v => ([.value (.str v) pos], [lexErr url pos v .unexpectedEndOfString])
  | .uniS pos v _ _ => ([.value (.str v) pos], [lexErr url pos v .unexpectedEndOfString])
  | .valS pos v =>
    let (pv, errs) := getResultValue url pos v
    ([.value pv pos], errs)

/-- The interleaved observable stream of the lazy pipeline: errors are
reported through the callback while tokens are yielded, in this order. -/
inductive LexEvent where
  | tok (t : JsonToken)
  | err (e : ParseError)
deriving DecidableEq, Repr

/-- Within one automaton step, the callback fires before the step's
tokens are yielded. -/
def stepEvents (s : LexStep) : List LexEvent :=
  s.errors.map .err ++ s.tokens.map .tok

/-- Driving the automaton over the positioned characters
(`fa.applyState`), capturing the final state for the `done` call. -/
def lexFold (url : String) (st : LexState) : List CharAndPosition →
    List LexEvent × LexState
  | [] => ([], st)
  | cp :: rest =>
    let s := lexNext url st cp
    let (evs, fin) := lexFold url s.state rest
    (stepEvents s ++ evs, fin)

/-- The events of the final `done` call (the report fires before the
token is yielded). -/
def doneEvents (url : String) (st : LexState) : List LexEvent :=
  let (toks, errs) := lexDone url st
  errs.map .err ++ toks.map .tok

/-- The complete event stream of running the lexer from `st` over the
given positioned characters, ending with the `done` call. -/
def fullLex (url : String) (st : LexState) (pcs : List CharAndPosition) :
    List LexEvent :=
  let (evs, fin) := lexFold url st pcs
  evs ++ doneEvents url fin

/-- All events of `tokenize s reportError url`, in order. -/
def tokenizeEvents (url s : String) : List LexEvent :=
  fullLex url .ws (addPosition s)

def eventToks (evs : List LexEvent) : List JsonToken :=
  evs.filterMap fun
    | .tok t => some t
    | .err _ => none

def eventErrs (evs : List LexEvent) : List ParseError :=
  evs.filterMap fun
    | .tok _ => none
    | .err e => some e

/-- The token sequence yielded by `tokenize`. -/
def tokenizeTokens (url s : String) : List JsonToken :=
  eventToks (tokenizeEvents url s)

/-- The errors reported by `tokenize`, in reporting order. -/
def tokenizeErrors (url s : String) : List ParseError :=
  eventErrs (tokenizeEvents url s)

/-! ## Rendering helpers used by the parser for error text and key coercion

`reportToken` renders the offending value token with `JSON.stringify`;
`propertyState` coerces non-string keys with `toString`.  Exact JS number
formatting (shortest round-trip decimal of a double) is modelled by the
exact decimal expansion of the rational, which agrees on every value the
claims exercise; values whose denominator divides no `10^k` with
`k ≤ 1200` (impossible for any value `parseFloat` produces from inputs of
the sizes exercised here) fall back to a marker. -/

/-- Least `k` (searching up from `k` through `fuel` more) with `d ∣ 10^k`. -/
def leastPow10 (d : Nat) : Nat → Nat → Option Nat
  | k, 0 => if 10 ^ k % d = 0 then some k else none
  | k, fuel + 1 => if 10 ^ k % d = 0 then some k else leastPow10 d (k + 1) fuel

/-- Exact decimal rendering of a rational whose denominator divides a
power of ten. -/
def ratToDecimalString (q : ℚ) : String :=
  let n := q.num.natAbs
  let body :=
    match leastPow10 q.den 0 1200 with
    | some 0 => toString n
    | some k =>
      let digits := toString (n * (10 ^ k / q.den))
      let digits := String.mk (List.replicate (k + 1 - digits.length) '0') ++ digits
      let whole := digits.take (digits.length - k)
      let frac := digits.drop (digits.length - k)
      whole ++ "." ++ frac
    | none => "?"
  if q.num < 0 then "-" ++ body else body

/-- JS `toString` on a number. -/
def jsNumberToString : JsNumber → String
  | .finite q => ratToDecimalString q
  | .inf false => "Infinity"
  | .inf true => "-Infinity"

def hexDigitLower (n : Nat) : Char :=
  if n < 10 then Char.ofNat ('0'.toNat + n) else Char.ofNat ('a'.toNat + n - 10)

/-- `JSON.stringify` string quoting. -/
def jsonQuote (s : String) : String :=
  "\"" ++ String.join (s.data.map fun c =>
    if c = '"' then "\\\""
    else if c = '\\' then "\\\\"
    else if c = Char.ofNat 0x08 then "\\b"
    else if c = '\t' then "\\t"
    else if c = '\n' then "\\n"
    else if c = Char.ofNat 0x0c then "\\f"
    else if c = '\r' then "\\r"
    else if c.toNat < 0x20 then
      "\\u00" ++ String.mk [hexDigitLower (c.toNat / 16), hexDigitLower (c.toNat % 16)]
    else String.singleton c) ++ "\""

/-- `JSON.stringify` on a primitive (`Infinity` serializes as `null`). -/
def jsonStringifyPrim : JsonPrim → String
  | .null => "null"
  | .bool true => "true"
  | .bool false => "false"
  | .num (.finite q) => ratToDecimalString q
  | .num (.inf _) => "null"
  | .str s => jsonQuote s

/-! ## The parser (`parse`) -/

/-- The token text used by `reportToken`. -/
def tokenText : JsonToken → String
  | .sym c _ => String.singleton c
  | .value v _ => jsonStringifyPrim v

def tokenPos : JsonToken → FilePosition
  | .sym _ p => p
  | .value _ p => p

def reportTok (url : String) (t : JsonToken) (code : ErrCode) : ParseError :=
  structErr url (tokenPos t) (tokenText t) code

/-- Own-data-property insert/update on a plain object: an existing key
keeps its place in insertion order, a new key is appended.  This is
`CreateDataProperty` semantics (what `JSON.parse` uses for every member,
including `__proto__`), so the reference decoder's member assignment is
exactly this. -/
def setProp (entries : List (String × Json)) (name : String) (v : Json) :
    List (String × Json) :=
  if entries.any (fun p => p.1 = name) then
    entries.map fun p => if p.1 = name then (name, v) else p
  else entries ++ [(name, v)]

/-- The source's `os.value[name] = v`: JS *assignment* on the plain
object being built.  For every name but `"__proto__"` this creates or
updates an own data property (`setProp`); assigning `"__proto__"` finds
the inherited `Object.prototype.__proto__` accessor and creates no own
entry — with a primitive value it is a silent no-op, with an object or
`null` value it mutates the prototype, which the own-property tree
`Json` does not represent (any later own-entry difference that
prototype mutation can enable requires a further `"__proto__"` member in
the same document, so on documents without a `"__proto__"` member this
definition and `setProp` agree and both are exact). -/
def assignProp (entries : List (String × Json)) (name : String) (v : Json) :
    List (String × Json) :=
  if name = "__proto__" then entries else setProp entries name v

/-- Where the value currently being parsed is delivered on completion:
this is the continuation state built by `valueState`'s `setFunc` closure
together with the partially built parent container. -/
inductive Cont where
  | top
  | objC (entries : List (String × Json)) (name : String) (pos : FilePosition) (k : Cont)
  | arrC (items : List Json) (pos : FilePosition) (k : Cont)
deriving Repr

/-- Parser automaton states.  `value k` is `valueState(·, setFunc)`;
`objOpen` the state returned by `objectState` (just after `{`, with a
`done` handler); `propKey` is `propertyState`; `propColon name` is
`propertyValueState(name)`; `objSep` the object `separatorState`;
`arrOpen`/`arrSep` the array analogues; `endSt` is `endState` and `inert`
the empty state `{}` it installs after the first extra token. -/
inductive PState where
  | value (k : Cont)
  | objOpen (entries : List (String × Json)) (pos : FilePosition) (k : Cont)
  | propKey (entries : List (String × Json)) (pos : FilePosition) (k : Cont)
  | propColon (entries : List (String × Json)) (pos : FilePosition) (k : Cont) (name : String)
  | objSep (entries : List (String × Json)) (pos : FilePosition) (k : Cont)
  | arrOpen (items : List Json) (pos : FilePosition) (k : Cont)
  | arrSep (items : List Json) (pos : FilePosition) (k : Cont)
  | endSt
  | inert
deriving Repr

/-- Completion of a value: in the source the child was already inserted
into its parent when it started; the pure equivalent inserts on
completion (the parent is untouched in between). -/
def deliver (j : Json) (k : Cont) (tv : Option Json) : PState × Option Json :=
  match k with
  | .top => (.endSt, some j)
  | .objC entries name pos k2 => (.objSep (assignProp entries name j) pos k2, tv)
  | .arrC items pos k2 => (.arrSep (items ++ [j]) pos k2, tv)

/-- `propertyState`'s key coercion: `null` and non-strings are flagged
and stringified. -/
def propName : JsonPrim → String × Bool
  | .str s => (s, false)
  | .null => ("null", true)
  | .bool true => ("true", true)
  | .bool false => ("false", true)
  | .num n => (jsNumberToString n, true)

/-- `valueState(state, setFunc).next`: `none` means the token did not fit
and the automaton state is unchanged. -/
def valueNext (url : String) (k : Cont) (tv : Option Json) (t : JsonToken) :
    Option (PState × Option Json) × List ParseError :=
  match t with
  | .value v _ => (some (deliver v.toJson k tv), [])
  | .sym c pos =>
    if c = '{' then (some (.objOpen [] pos k, tv), [])
    else if c = '[' then (some (.arrOpen [] pos k, tv), [])
    else (none, [reportTok url t .unexpectedToken])

/-- `propertyState.next` shared by `objOpen` (which delegates to it) and
`propKey`; `none` means unchanged state. -/
def propKeyNext (url : String) (entries : List (String × Json)) (pos : FilePosition)
    (k : Cont) (t : JsonToken) : Option PState × List ParseError :=
  match t with
  | .value v _ =>
    let (name, bad) := propName v
    (some (.propColon entries pos k name),
     if bad then [reportTok url t .expectingPropertyName] else [])
  | .sym _ _ => (none, [reportTok url t .unexpectedToken])

/-- One token step of the parser automaton (`.inert` is handled by the
driver, which stops pulling the stream there). -/
def parseStep (url : String) (st : PState) (tv : Option Json) (t : JsonToken) :
    PState × Option Json × List ParseError :=
  match st with
  | .value k =>
    match valueNext url k tv t with
    | (some (st2, tv2), errs) => (st2, tv2, errs)
    | (none, errs) => (.value k, tv, errs)
  | .objOpen entries pos k =>
    match t with
    | .sym '}' _ =>
      let (st2, tv2) := deliver (.obj entries) k tv
      (st2, tv2, [])
    | _ =>
      match propKeyNext url entries pos k t with
      | (some st2, errs) => (st2, tv, errs)
      | (none, errs) => (.objOpen entries pos k, tv, errs)
  | .propKey entries pos k =>
    match propKeyNext url entries pos k t with
    | (some st2, errs) => (st2, tv, errs)
    | (none, errs) => (.propKey entries pos k, tv, errs)
  | .propColon entries pos k name =>
    match t with
    | .sym ':' _ => (.value (.objC entries name pos k), tv, [])
    | _ => (.propColon entries pos k name, tv, [reportTok url t .unexpectedToken])
  | .objSep entries pos k =>
    match t with
    | .sym '}' _ =>
      let (st2, tv2) := deliver (.obj entries) k tv
      (st2, tv2, [])
    | .sym ',' _ => (.propKey entries pos k, tv, [])
    | _ => (.objSep entries pos k, tv, [reportTok url t .unexpectedToken])
  | .arrOpen items pos k =>
    match t with
    | .sym ']' _ =>
      let (st2, tv2) := deliver (.arr items) k tv
      (st2, tv2, [])
    | _ =>
      match valueNext url (.arrC items pos k) tv t with
      | (some (st2, tv2), errs) => (st2, tv2, errs)
      | (none, errs) => (.arrOpen items pos k, tv, errs)
  | .arrSep items pos k =>
    match t with
    | .sym ']' _ =>
      let (st2, tv2) := deliver (.arr items) k tv
      (st2, tv2, [])
    | .sym ',' _ => (.value (.arrC items pos k), tv, [])
    | _ => (.arrSep items pos k, tv, [reportTok url t .unexpectedToken])
  | .endSt => (.inert, tv, [reportTok url t .unexpectedToken])
  | .inert => (.inert, tv, [])

/-- The `done` handlers of the parser states: only the object/array
states installed right after `{`/`[` and the separator states report
`unexpected end of file`, with the implied closing symbol as token. -/
def parserDone (url : String) (st : PState) : List ParseError :=
  match st with
  | .objOpen _ pos _ => [structErr url pos "\x7d" .unexpectedEndOfFile]
  | .objSep _ pos _ => [structErr url pos "\x7d" .unexpectedEndOfFile]
  | .arrOpen _ pos _ => [structErr url pos "]" .unexpectedEndOfFile]
  | .arrSep _ pos _ => [structErr url pos "]" .unexpectedEndOfFile]
  | _ => []

/-- The top-level `value` variable at end of stream: the source set it to
the (then mutable, since mutated) top-level container when that container
started, so on a mid-container end of input it holds the partial tree;
`collapseCont` rebuilds exactly that final mutated state. -/
def collapseCont (j : Json) : Cont → Json
  | .top => j
  | .objC entries name _ k => collapseCont (.obj (assignProp entries name j)) k
  | .arrC items _ k => collapseCont (.arr (items ++ [j])) k

def partialValue (st : PState) (tv : Option Json) : Option Json :=
  match st with
  | .value .top => tv
  | .value (.objC entries _ _ k) => some (collapseCont (.obj entries) k)
  | .value (.arrC items _ k) => some (collapseCont (.arr items) k)
  | .objOpen entries _ k => some (collapseCont (.obj entries) k)
  | .propKey entries _ k => some (collapseCont (.obj entries) k)
  | .propColon entries _ k _ => some (collapseCont (.obj entries) k)
  | .objSep entries _ k => some (collapseCont (.obj entries) k)
  | .arrOpen items _ k => some (collapseCont (.arr items) k)
  | .arrSep items _ k => some (collapseCont (.arr items) k)
  | .endSt => tv
  | .inert => tv

/-- Driving the parser over the event stream.  A token arriving in the
`inert` state makes `fa.applyState`'s loop break: the rest of the lazy
stream — later tokens and the lexical errors interleaved with them — is
never produced. -/
def runP (url : String) (st : PState) (tv : Option Json) :
    List LexEvent → Option Json × List ParseError
  | [] => (partialValue st tv, parserDone url st)
  | .err e :: rest =>
    let (v, es) := runP url st tv rest
    (v, e :: es)
  | .tok t :: rest =>
    match st with
    | .inert => (partialValue .inert tv, parserDone url .inert)
    | _ =>
      let (st2, tv2, errs) := parseStep url st tv t
      let (v, es) := runP url st2 tv2 rest
      (v, errs ++ es)

/-- `parse url context reportError`, with the reported errors returned in
reporting order. -/
def parseFull (url context : String) : Json × List ParseError :=
  match runP url (.value .top) none (tokenizeEvents url context) with
  | (none, errs) => (.null, errs ++ [structErr url ⟨1, 1⟩ "" .unexpectedEndOfFile])
  | (some j, errs) => (j, errs)

def parseValue (url context : String) : Json := (parseFull url context).1

def parseErrors (url context : String) : List ParseError := (parseFull url context).2

/-! ## `parse` with an arbitrary error callback

`reportError` is an arbitrary stateful procedure; modelled as a fold
function `rep` over an accumulator threaded through the same run. -/

def runPCB {σ : Type _} (url : String) (rep : σ → ParseError → σ)
    (st : PState) (tv : Option Json) (acc : σ) :
    List LexEvent → Option Json × σ
  | [] => (partialValue st tv, (parserDone url st).foldl rep acc)
  | .err e :: rest => runPCB url rep st tv (rep acc e) rest
  | .tok t :: rest =>
    match st with
    | .inert => (partialValue .inert tv, acc)
    | _ =>
      let (st2, tv2, errs) := parseStep url st tv t
      runPCB url rep st2 tv2 (errs.foldl rep acc) rest

/-- `parse url context reportError` where `reportError` folds `rep` over
an accumulator starting at `acc`; returns the value and the final
accumulator. -/
def parseCB {σ : Type _} (rep : σ → ParseError → σ) (acc : σ)
    (url context : String) : Json × σ :=
  match runPCB url rep (.value .top) none acc (tokenizeEvents url context) with
  | (none, a) => (.null, rep a (structErr url ⟨1, 1⟩ "" .unexpectedEndOfFile))
  | (some j, a) => (j, a)

/-! ## `parse` with the defaulted callback

`defaultErrorReport` throws its argument, so the run aborts at the first
reported error, which propagates to the caller. -/

def runPT (url : String) (st : PState) (tv : Option Json) :
    List LexEvent → Except ParseError (Option Json)
  | [] =>
    match parserDone url st with
    | [] => .ok (partialValue st tv)
    | e :: _ => .error e
  | .err e :: _ => .error e
  | .tok t :: rest =>
    match st with
    | .inert => .ok (partialValue .inert tv)
    | _ =>
      match parseStep url st tv t with
      | (_, _, e :: _) => .error e
      | (st2, tv2, []) => runPT url st2 tv2 rest

/-- `parse url context` with the callback omitted: `.error e` is the
`ParseError` exception `e` escaping `parse`, `.ok j` a normal return. -/
def parseThrow (url context : String) : Except ParseError Json :=
  match runPT url (.value .top) none (tokenizeEvents url context) with
  | .error e => .error e
  | .ok none => .error (structErr url ⟨1, 1⟩ "" .unexpectedEndOfFile)
  | .ok (some j) => .ok j

/-! ## A reference JSON decoder

Modelled from the spec: the claims compare `parse` against "a reference
JSON decoder", which is not part of this repository.  `Ref.refDecode`
below is a strict RFC 8259 recursive-descent decoder: `refLex` lexes the
text (strict escapes, strict number grammar with no leading `+`, no
leading zeros, control characters forbidden unescaped inside strings) and
`refTokVal` parses exactly one value.  `refDecode` succeeds on exactly
the valid JSON documents and yields the decoded value, with numbers as
exact rationals and objects as insertion-ordered key/value lists with
last-duplicate-wins assignment (the observable behaviour of `JSON.parse`,
up to IEEE rounding which is common to both sides). -/

namespace Ref

/-- The eight single-character JSON string escapes. -/
def refEscape (c : Char) : Option Char :=
  if c = '"' then some '"'
  else if c = '\\' then some '\\'
  else if c = '/' then some '/'
  else if c = 'b' then some (Char.ofNat 0x08)
  else if c = 'f' then some (Char.ofNat 0x0c)
  else if c = 'n' then some '\n'
  else if c = 'r' then some '\r'
  else if c = 't' then some '\t'
  else none

/-- A JSON hexadecimal digit. -/
def refHexVal (c : Char) : Option Nat :=
  if '0' ≤ c ∧ c ≤ '9' then some (c.toNat - '0'.toNat)
  else if 'a' ≤ c ∧ c ≤ 'f' then some (c.toNat - 'a'.toNat + 10)
  else if 'A' ≤ c ∧ c ≤ 'F' then some (c.toNat - 'A'.toNat + 10)
  else none

/-- String contents after an opening quote: returns the decoded
characters and the remainder after the closing quote.  Unescaped
characters below `0x20` are refused (RFC 8259 allows `0x7F` raw). -/
def refString : List Char → Option (List Char × List Char)
  | [] => none
  | c :: rest =>
    if c = '"' then some ([], rest)
    else if c = '\\' then
      match rest with
      | [] => none
      | e :: r =>
        if e = 'u' then
          match r with
          | d1 :: d2 :: d3 :: d4 :: r4 =>
            match refHexVal d1, refHexVal d2, refHexVal d3, refHexVal d4 with
            | some h1, some h2, some h3, some h4 =>
              (refString r4).map fun p =>
                (Char.ofNat (((h1 <<< 4 ||| h2) <<< 4 ||| h3) <<< 4 ||| h4) :: p.1, p.2)
            | _, _, _, _ => none
          | _ => none
        else
          match refEscape e with
          | some d => (refString r).map fun p => (d :: p.1, p.2)
          | none => none
    else if c.toNat < 0x20 then none
    else (refString rest).map fun p => (c :: p.1, p.2)

/-- The strict integer part: `0` (not followed by another digit) or a
nonzero-led digit run. -/
def refIntPart (c : Char) (d : Nat) (r : List Char) :
    Option (List Nat × List Char) :=
  if c = '0' then
    match r with
    | r0 :: _ => if (digitVal r0).isSome then none else some ([0], r)
    | [] => some ([0], [])
  else some (let (ds, r2) := takeDigits r; (d :: ds, r2))

/-- The strict fraction part: nothing, or `.` with at least one digit. -/
def refFracPart (cs2 : List Char) : Option (List Nat × List Char) :=
  match cs2 with
  | c :: r3 =>
    if c = '.' then
      match takeDigits r3 with
      | ([], _) => none
      | (ds, r4) => some (ds, r4)
    else some ([], cs2)
  | [] => some ([], [])

/-- The strict exponent part: nothing, or `e`/`E`, an optional sign and
at least one digit. -/
def refExpPart (cs3 : List Char) : Option (Int × List Char) :=
  match cs3 with
  | e :: r5 =>
    if e = 'e' ∨ e = 'E' then
      match expSign r5 with
      | (eneg, r6) =>
        match takeDigits r6 with
        | ([], _) => none
        | (ds, r7) =>
          some ((if eneg then -(digitsToNat ds : Int)
                 else (digitsToNat ds : Int)), r7)
    else some (0, cs3)
  | [] => some (0, [])

/-- The strict optional sign: `-` only. -/
def refSign (cs : List Char) : Bool × List Char :=
  match cs with
  | c :: r => if c = '-' then (true, r) else (false, cs)
  | [] => (false, [])

/-- A JSON number at the head of the input (strict grammar: optional `-`,
`0` or a nonzero-led digit run, optional `.` fraction with at least one
digit, optional exponent with at least one digit). -/
def refNumber (cs : List Char) : Option (ℚ × List Char) :=
  match refSign cs with
  | (neg, cs1) =>
  match cs1 with
  | [] => none
  | c :: r =>
    match digitVal c with
    | none => none
    | some d =>
      match refIntPart c d r with
      | none => none
      | some (intDs, cs2) =>
        match refFracPart cs2 with
        | none => none
        | some (fracDs, cs3) =>
          match refExpPart cs3 with
          | none => none
          | some (exp, cs4) => some (decimalValue neg intDs fracDs exp, cs4)

/-- Reference tokens: no positions, decoded primitives. -/
inductive RefTok where
  | sym (c : Char)
  | val (v : JsonPrim)
deriving DecidableEq, Repr

/-- Classification of a maximal run of value characters: a literal name
or a number matching the whole run. -/
def refClassify (chunk : List Char) : Option JsonPrim :=
  if chunk = "true".data then some (.bool true)
  else if chunk = "false".data then some (.bool false)
  else if chunk = "null".data then some (.null)
  else
    match refNumber chunk with
    | some (q, []) => some (.num (.finite q))
    | _ => none

/-- The reference lexer: whitespace, symbols, strings, and maximal
value-character runs that must classify.  (In a valid document a number
or literal is always followed by whitespace, a symbol, a quote or the
end, so the maximal-run reading is the RFC reading.) -/
def refLexLoop : Nat → List Char → Option (List RefTok)
  | _, [] => some []
  | 0, _ :: _ => none
  | fuel + 1, c :: rest =>
    if isWhiteSpaceChar c then refLexLoop fuel rest
    else if isSymbolChar c then
      match refLexLoop fuel rest with
      | some ts => some (.sym c :: ts)
      | none => none
    else if c = '"' then
      match refString rest with
      | some (s, r) =>
        match refLexLoop fuel r with
        | some ts => some (.val (.str (String.mk s)) :: ts)
        | none => none
      | none => none
    else if isJsonValueChar c then
      match refClassify (c :: rest.takeWhile isJsonValueChar) with
      | some v =>
        match refLexLoop fuel (rest.dropWhile isJsonValueChar) with
        | some ts => some (.val v :: ts)
        | none => none
      | none => none
    else none

def refLex (cs : List Char) : Option (List RefTok) :=
  refLexLoop cs.length cs

mutual

/-- Exactly one JSON value at the head of the token list. -/
def refTokVal : Nat → List RefTok → Option (Json × List RefTok)
  | _, .val v :: rest => some (v.toJson, rest)
  | f + 1, .sym c :: rest =>
    if c = '{' then refTokObjStart f rest
    else if c = '[' then refTokArrStart f rest
    else none
  | 0, .sym _ :: _ => none
  | _, [] => none

def refTokObjStart : Nat → List RefTok → Option (Json × List RefTok)
  | f + 1, toks =>
    match toks with
    | .sym c :: rest =>
      if c = '}' then some (.obj [], rest) else refTokMembers f toks []
    | _ => refTokMembers f toks []
  | 0, _ => none

/-- Members of an object after `{` or `,`: a string key, `:`, a value,
then `}` or `,`.  Duplicate keys assign like `JSON.parse`. -/
def refTokMembers : Nat → List RefTok → List (String × Json) →
    Option (Json × List RefTok)
  | f + 1, .val (.str s) :: .sym c :: r, entries =>
    if c = ':' then
      match refTokVal f r with
      | some (v, r2) =>
        (match r2 with
         | .sym c2 :: r3 =>
           if c2 = '}' then some (.obj (setProp entries s v), r3)
           else if c2 = ',' then refTokMembers f r3 (setProp entries s v)
           else none
         | _ => none)
      | none => none
    else none
  | _, _, _ => none

def refTokArrStart : Nat → List RefTok → Option (Json × List RefTok)
  | f + 1, toks =>
    match toks with
    | .sym c :: rest =>
      if c = ']' then some (.arr [], rest) else refTokItems f toks []
    | _ => refTokItems f toks []
  | 0, _ => none

def refTokItems : Nat → List RefTok → List Json → Option (Json × List RefTok)
  | f + 1, toks, items =>
    (match refTokVal f toks with
     | some (v, r) =>
       (match r with
        | .sym c :: r2 =>
          if c = ']' then some (.arr (items ++ [v]), r2)
          else if c = ',' then refTokItems f r2 (items ++ [v])
          else none
        | _ => none)
     | none => none)
  | 0, _, _ => none

end

/-- The reference JSON decoder: `some v` exactly on valid JSON documents
(one value amid whitespace). -/
def refDecode (s : String) : Option Json :=
  match refLex s.data with
  | none => none
  | some toks =>
    match refTokVal (3 * toks.length + 3) toks with
    | some (v, []) => some v
    | _ => none

/-- A `tokenize` token with the position forgotten. -/
def strip : JsonToken → RefTok
  | .sym c _ => .sym c
  | .value v _ => .val v

end Ref

/-- The parser automaton folded over a bare token list (the restriction
of `runP` to token events: a token in the `inert` state stops the
fold). -/
def runToks (url : String) (st : PState) (tv : Option Json) :
    List JsonToken → PState × Option Json × List ParseError
  | [] => (st, tv, [])
  | t :: rest =>
    match st with
    | .inert => (.inert, tv, [])
    | _ =>
      let (st2, tv2, errs) := parseStep url st tv t
      let (st3, tv3, errs2) := runToks url st2 tv2 rest
      (st3, tv3, errs ++ errs2)

/-- The (line, column) state of `addPosition` after the given characters. -/
def posAfter : Nat → Nat → List Char → Nat × Nat
  | l, c, [] => (l, c)
  | l, c, ch :: rest =>
    if ch = '\n' then posAfter (l + 1) 1 rest else posAfter l (c + 1) rest

/-- Modelled from the spec's words in C3: "the standard JSON number
grammar (optional sign, integer part, optional fractional part, optional
exponent)", as a whole-string match. -/
def specJsonNumber (s : String) : Bool :=
  let afterInt : Option (List Char) :=
    let cs := match s.data with
      | '+' :: r => r
      | '-' :: r => r
      | r => r
    match takeDigits cs with
    | ([], _) => none
    | (_, r) => some r
  match afterInt with
  | none => false
  | some cs2 =>
    let afterFrac : Option (List Char) :=
      match cs2 with
      | '.' :: r =>
        (match takeDigits r with
         | ([], _) => none
         | (_, r2) => some r2)
      | r => some r
    match afterFrac with
    | none => false
    | some cs3 =>
      let afterExp : Option (List Char) :=
        match cs3 with
        | e :: r =>
          if e = 'e' ∨ e = 'E' then
            (let r2 := match r with
               | '+' :: rr => rr
               | '-' :: rr => rr
               | rr => rr
             match takeDigits r2 with
             | ([], _) => none
             | (_, r3) => some r3)
          else some cs3
        | [] => some []
      match afterExp with
      | none => false
      | some rest => rest.isEmpty

/-! ## Claim theorems -/

/-! ### Helper lemmas -/

theorem digitVal_lt_16 {c : Char} {h : Nat} (hh : digitVal c = some h) : h < 16 := by
  unfold digitVal at hh
  split at hh
  · rename_i hc
    obtain ⟨h1, h2⟩ := hc
    injection hh with hh
    have h2n : c.toNat ≤ '9'.toNat := h2
    have h1n : '0'.toNat ≤ c.toNat := h1
    have e9 : '9'.toNat = 57 := rfl
    have e0 : '0'.toNat = 48 := rfl
    omega
  · exact absurd hh (by simp)

theorem hexMapF_lt_16 {c : Char} {h : Nat} (hh : hexMapF c = some h) : h < 16 := by
  unfold hexMapF at hh
  split at hh
  · rename_i hc
    obtain ⟨h1, h2⟩ := hc
    injection hh with hh
    have h2n : c.toNat ≤ '9'.toNat := h2
    have h1n : '0'.toNat ≤ c.toNat := h1
    have e9 : '9'.toNat = 57 := rfl
    have e0 : '0'.toNat = 48 := rfl
    omega
  · split at hh
    · rename_i hc
      obtain ⟨h1, h2⟩ := hc
      injection hh with hh
      have h2n : c.toNat ≤ 'f'.toNat := h2
      have h1n : 'a'.toNat ≤ c.toNat := h1
      have ef : 'f'.toNat = 102 := rfl
      have ea : 'a'.toNat = 97 := rfl
      omega
    · split at hh
      · rename_i hc
        obtain ⟨h1, h2⟩ := hc
        injection hh with hh
        have h2n : c.toNat ≤ 'F'.toNat := h2
        have h1n : 'A'.toNat ≤ c.toNat := h1
        have ef : 'F'.toNat = 70 := rfl
        have ea : 'A'.toNat = 65 := rfl
        omega
      · exact absurd hh (by simp)

theorem shiftLeft4_or (a b : Nat) (hb : b < 16) : a <<< 4 ||| b = 16 * a + b := by
  rw [Nat.shiftLeft_eq, Nat.mul_comm]
  exact (Nat.mul_add_lt_is_or hb a).symm

theorem hexQuad_eq (h1 h2 h3 h4 : Nat) (b2 : h2 < 16) (b3 : h3 < 16) (b4 : h4 < 16) :
    ((h1 <<< 4 ||| h2) <<< 4 ||| h3) <<< 4 ||| h4
      = 4096 * h1 + 256 * h2 + 16 * h3 + h4 := by
  rw [shiftLeft4_or _ _ b2, shiftLeft4_or _ _ b3, shiftLeft4_or _ _ b4]
  ring

/-- C6: for the empty input text, `parse` returns `null` and invokes the
error callback exactly once, with a structural `unexpected end of file`
error at line 1, column 1 (the start of the document) and empty
offending-token text. -/
theorem parse_empty_input_single_eof_error :
    ∀ url, parseFull url "" =
      (Json.null, [structErr url ⟨1, 1⟩ "" .unexpectedEndOfFile]) :=
  fun _ => rfl

/-- C2 counterexample: the input `"false true true"` has two trailing
tokens after the top-level value, but `parse` reports only one
`unexpected token` error (at the first `true`), not one per trailing
token: the automaton stops consuming instead of continuing to discard. -/
theorem trailing_tokens_single_error_cex :
    parseFull "u" "false true true" =
      (Json.bool false, [structErr "u" ⟨1, 7⟩ "true" .unexpectedToken]) := rfl

/-- C2 (amended): the first token arriving after the top-level value is
reported as `unexpected token` — so `" false true "` yields value `false`
and exactly one error pointing at `true` — and `endState` then installs
the empty state, in which the arrival of any further token makes the
driver stop consuming the stream: later trailing tokens are discarded
unreported rather than each being reported. -/
theorem trailing_token_reported_then_stream_stops :
    (∀ url, parseFull url " false true " =
        (Json.bool false, [structErr url ⟨1, 8⟩ "true" .unexpectedToken]))
    ∧ (∀ url tv t, parseStep url .endSt tv t =
        (.inert, tv, [reportTok url t .unexpectedToken]))
    ∧ (∀ url tv t rest, runP url .inert tv (.tok t :: rest) = (tv, [])) :=
  ⟨fun _ => rfl, fun _ _ _ => rfl, fun _ _ _ _ => rfl⟩

/-- C4 counterexample: end of input in an object's property-name state
(reached after a `,`) reports nothing at all: `parse` on `'{"a":1,'`
returns the partial object with an empty error list, contradicting the
claim that end-of-input in the property state reports
`unexpected end of file`. -/
theorem object_property_state_eof_unreported_cex :
    parseFull "u" "\x7b\"a\":1," =
      (Json.obj [("a", Json.num (.finite 1))], []) := rfl

/-- C4 (amended): for input `"{"`, `parse` reports exactly one structural
`unexpected end of file` error whose implied missing token is `}` (at the
object's opening position) and returns the empty object.  End-of-input
reports that error exactly in the state installed right after `{` and in
the object separator state; the property-name state (after `,`) and the
after-key state have no end-of-input handler and report nothing. -/
theorem object_eof_reported_after_open_and_separator :
    (∀ url, parseFull url "\x7b" =
        (Json.obj [], [structErr url ⟨1, 1⟩ "\x7d" .unexpectedEndOfFile]))
    ∧ (∀ url entries pos k, parserDone url (.objOpen entries pos k) =
        [structErr url pos "\x7d" .unexpectedEndOfFile])
    ∧ (∀ url entries pos k, parserDone url (.objSep entries pos k) =
        [structErr url pos "\x7d" .unexpectedEndOfFile])
    ∧ (∀ url entries pos k, parserDone url (.propKey entries pos k) = [])
    ∧ (∀ url entries pos k name, parserDone url (.propColon entries pos k name) = []) :=
  ⟨fun _ => rfl, fun _ _ _ _ => rfl, fun _ _ _ _ => rfl,
   fun _ _ _ _ => rfl, fun _ _ _ _ _ => rfl⟩

/-- C3 counterexample: the buffer `"1z"` matches neither a literal nor
the claim's JSON number grammar, yet `tokenize` emits the numeric token
`1` (the `parseFloat` longest-prefix value) and reports no error at all —
`invalid token` is not reported exactly when the buffer fails the
grammar. -/
theorem invalid_token_vs_number_grammar_cex :
    specJsonNumber "1z" = false
    ∧ ("1z" ≠ "true" ∧ "1z" ≠ "false" ∧ "1z" ≠ "null")
    ∧ tokenizeTokens "u" "1z" = [.value (.num (.finite 1)) ⟨1, 1⟩]
    ∧ tokenizeErrors "u" "1z" = [] :=
  ⟨rfl, ⟨by decide, by decide, by decide⟩, rfl, rfl⟩

/-- C3 (amended): a finalized buffer that is not `true`/`false`/`null` is
given to JS `parseFloat` (longest-prefix decimal-literal semantics, which
also accepts a leading `+` and `Infinity` — not a whole-string JSON
number grammar match); exactly when that parse yields `NaN` the raw text
is emitted as a string-typed value token and `invalid token` is reported,
as for the buffer `"-+123e+56"`. -/
theorem value_finalization_uses_parsefloat :
    (∀ url pos v, v ≠ "true" → v ≠ "false" → v ≠ "null" →
      (∀ n, parseFloatQ v.data = some n → getResultValue url pos v = (.num n, []))
      ∧ (parseFloatQ v.data = none →
          getResultValue url pos v = (.str v, [lexErr url pos v .invalidToken])))
    ∧ (∀ url, tokenizeTokens url "-+123e+56" = [.value (.str "-+123e+56") ⟨1, 1⟩]
        ∧ tokenizeErrors url "-+123e+56" =
          [lexErr url ⟨1, 1⟩ "-+123e+56" .invalidToken]) := by
  constructor
  · intro url pos v h1 h2 h3
    constructor
    · intro n hn
      simp [getResultValue, h1, h2, h3, hn]
    · intro hn
      simp [getResultValue, h1, h2, h3, hn]
  · exact fun _ => ⟨rfl, rfl⟩

theorem addPositionAux_length : ∀ (cs : List Char) (l c : Nat),
    (addPositionAux l c cs).length = cs.length
  | [], _, _ => rfl
  | ch :: rest, l, c => by
    simp only [addPositionAux]
    split <;> simp [addPositionAux_length rest]

theorem addPositionAux_adjacent : ∀ (cs : List Char) (l c i : Nat)
    (h1 : i < (addPositionAux l c cs).length)
    (h2 : i + 1 < (addPositionAux l c cs).length),
    (((addPositionAux l c cs).get ⟨i, h1⟩).c = '\n' →
      ((addPositionAux l c cs).get ⟨i + 1, h2⟩).position.line
        = ((addPositionAux l c cs).get ⟨i, h1⟩).position.line + 1
      ∧ ((addPositionAux l c cs).get ⟨i + 1, h2⟩).position.column = 1)
    ∧ (¬ ((addPositionAux l c cs).get ⟨i, h1⟩).c = '\n' →
      ((addPositionAux l c cs).get ⟨i + 1, h2⟩).position.line
        = ((addPositionAux l c cs).get ⟨i, h1⟩).position.line
      ∧ ((addPositionAux l c cs).get ⟨i + 1, h2⟩).position.column
        = ((addPositionAux l c cs).get ⟨i, h1⟩).position.column + 1)
  | [], l, c, i, h1, h2 => by simp [addPositionAux] at h1
  | ch :: rest, l, c, 0, h1, h2 => by
    by_cases hch : ch = '\n'
    · subst hch
      cases rest with
      | nil => simp [addPositionAux, addPositionAux_length] at h2
      | cons r rs =>
        constructor
        · intro _
          simp [addPositionAux]
        · intro hne
          exact absurd rfl hne
    · cases rest with
      | nil => simp [addPositionAux, hch, addPositionAux_length] at h2
      | cons r rs =>
        constructor
        · intro he
          exact absurd he hch
        · intro _
          simp [addPositionAux, hch]
  | ch :: rest, l, c, j + 1, h1, h2 => by
    by_cases hch : ch = '\n'
    · subst hch
      have ih := addPositionAux_adjacent rest (l + 1) 1 j
        (by simpa [addPositionAux] using h1) (by simpa [addPositionAux] using h2)
      simpa [addPositionAux] using ih
    · have ih := addPositionAux_adjacent rest l (c + 1) j
        (by simpa [addPositionAux, hch] using h1) (by simpa [addPositionAux, hch] using h2)
      simpa [addPositionAux, hch] using ih

/-- C8: in the positioned character stream of `addPosition`, after a
newline the next character's line is one greater with the column reset to
the initial column (1), and after any other character the column is one
greater with the line unchanged; in particular in `"abc\ndef"` the `d`
(index 4) carries line 2, column 1. -/
theorem addPosition_line_column_stepping :
    (∀ s i (h1 : i < (addPosition s).length) (h2 : i + 1 < (addPosition s).length),
      (((addPosition s).get ⟨i, h1⟩).c = '\n' →
        ((addPosition s).get ⟨i + 1, h2⟩).position.line
          = ((addPosition s).get ⟨i, h1⟩).position.line + 1
        ∧ ((addPosition s).get ⟨i + 1, h2⟩).position.column = 1)
      ∧ (¬ ((addPosition s).get ⟨i, h1⟩).c = '\n' →
        ((addPosition s).get ⟨i + 1, h2⟩).position.line
          = ((addPosition s).get ⟨i, h1⟩).position.line
        ∧ ((addPosition s).get ⟨i + 1, h2⟩).position.column
          = ((addPosition s).get ⟨i, h1⟩).position.column + 1))
    ∧ (addPosition "abc\ndef").get? 4 = some ⟨'d', ⟨2, 1⟩⟩ :=
  ⟨fun s i h1 h2 => addPositionAux_adjacent s.data 1 1 i h1 h2, rfl⟩

/-- Witness for the C8 theorem at `"abc\ndef"`, index 3 (the newline):
the following `d` is at line-of-newline + 1, column 1. -/
theorem addPosition_line_column_stepping_witness :
    ((addPosition "abc\ndef").get ⟨3 + 1, by decide⟩).position.line
      = ((addPosition "abc\ndef").get ⟨3, by decide⟩).position.line + 1
    ∧ ((addPosition "abc\ndef").get ⟨3 + 1, by decide⟩).position.column = 1 :=
  (addPosition_line_column_stepping.1 "abc\ndef" 3 (by decide) (by decide)).1 (by decide)

/-- C5: in the string state, `\u` followed by exactly 4 hex digits
appends the single 16-bit code unit those digits denote (so `\u00AE`
decodes to `®` with zero errors); a non-hex digit inside the sequence
reports `invalid escape symbol` and returns to the string state without
keeping the partial digits, so `'"\u0XAE"'` yields the string `"AE"` and
exactly one `invalid escape symbol` error. -/
theorem unicode_escape_appends_code_unit :
    (∀ url pos v cp, cp.c = 'u' →
      lexNext url (.escS pos v) cp = ⟨[], [], .uniS pos v 0 0⟩)
    ∧ (∀ url pos v cp1 cp2 cp3 cp4 h1 h2 h3 h4,
        hexMapF cp1.c = some h1 → hexMapF cp2.c = some h2 →
        hexMapF cp3.c = some h3 → hexMapF cp4.c = some h4 →
        lexFold url (.uniS pos v 0 0) [cp1, cp2, cp3, cp4] =
          ([], .strS pos (v.push (Char.ofNat (4096 * h1 + 256 * h2 + 16 * h3 + h4)))))
    ∧ (∀ url pos v i u cp, hexMapF cp.c = none →
        lexNext url (.uniS pos v i u) cp =
          ⟨[], [lexErr url cp.position (String.singleton cp.c) .invalidEscapeSymbol],
            .strS pos v⟩)
    ∧ (∀ url, tokenizeTokens url "\"\\u00AE\"" = [.value (.str "®") ⟨1, 1⟩]
        ∧ tokenizeErrors url "\"\\u00AE\"" = [])
    ∧ (∀ url, tokenizeTokens url "\"\\u0XAE\"" = [.value (.str "AE") ⟨1, 1⟩]
        ∧ tokenizeErrors url "\"\\u0XAE\"" =
          [lexErr url ⟨1, 5⟩ "X" .invalidEscapeSymbol]) := by
  refine ⟨fun url pos v cp hu => ?_, fun url pos v cp1 cp2 cp3 cp4 h1 h2 h3 h4 e1 e2 e3 e4 => ?_,
    fun url pos v i u cp hn => ?_, fun _ => ⟨rfl, rfl⟩, fun _ => ⟨rfl, rfl⟩⟩
  · simp [lexNext, hu]
  · have q := hexQuad_eq h1 h2 h3 h4 (hexMapF_lt_16 e2) (hexMapF_lt_16 e3) (hexMapF_lt_16 e4)
    simp [lexFold, lexNext, e1, e2, e3, e4, stepEvents, q]
  · simp [lexNext, hn]

/-- Witness for the C5 theorem: the escape sequence `\u00AE` stepped from
the unicode state appends `®` (code unit `0x00AE`), and the non-hex `X`
aborts back to the string state with one error. -/
theorem unicode_escape_appends_code_unit_witness :
    lexFold "u" (.uniS ⟨1, 1⟩ "" 0 0)
        [⟨'0', ⟨1, 4⟩⟩, ⟨'0', ⟨1, 5⟩⟩, ⟨'A', ⟨1, 6⟩⟩, ⟨'E', ⟨1, 7⟩⟩] =
      ([], .strS ⟨1, 1⟩ (String.push "" (Char.ofNat (4096 * 0 + 256 * 0 + 16 * 10 + 14))))
    ∧ lexNext "u" (.uniS ⟨1, 1⟩ "AE" 2 1) ⟨'X', ⟨1, 5⟩⟩ =
        ⟨[], [lexErr "u" ⟨1, 5⟩ "X" .invalidEscapeSymbol], .strS ⟨1, 1⟩ "AE"⟩ :=
  ⟨unicode_escape_appends_code_unit.2.1 "u" ⟨1, 1⟩ "" ⟨'0', ⟨1, 4⟩⟩ ⟨'0', ⟨1, 5⟩⟩
      ⟨'A', ⟨1, 6⟩⟩ ⟨'E', ⟨1, 7⟩⟩ 0 0 10 14 (by decide) (by decide) (by decide) (by decide),
   unicode_escape_appends_code_unit.2.2.1 "u" ⟨1, 1⟩ "AE" 2 1 ⟨'X', ⟨1, 5⟩⟩ (by decide)⟩

/-- C7: whenever the input ends while the lexer is in the string, escape
or unicode-escape state, `tokenize` reports one final
`unexpected end of string` error positioned at the string's opening quote
and still yields the in-progress buffer as a final value token. -/
theorem eof_in_string_state_reports_and_recovers :
    ∀ url s pos v,
      ((lexFold url .ws (addPosition s)).2 = .strS pos v
       ∨ (lexFold url .ws (addPosition s)).2 = .escS pos v
       ∨ (∃ i u, (lexFold url .ws (addPosition s)).2 = .uniS pos v i u)) →
      tokenizeTokens url s =
        eventToks (lexFold url .ws (addPosition s)).1 ++ [.value (.str v) pos]
      ∧ tokenizeErrors url s =
        eventErrs (lexFold url .ws (addPosition s)).1
          ++ [lexErr url pos v .unexpectedEndOfString] := by
  intro url s pos v h
  have expand : tokenizeEvents url s =
      (lexFold url .ws (addPosition s)).1
        ++ doneEvents url (lexFold url .ws (addPosition s)).2 := by
    simp [tokenizeEvents, fullLex]
  rcases h with h | h | ⟨i, u, h⟩ <;>
    simp [tokenizeTokens, tokenizeErrors, expand, h, doneEvents, lexDone,
      eventToks, eventErrs, List.filterMap_append]

/-- Witness for the C7 theorem at input `'"xyz'`: exactly one token (the
string `"xyz"` at the opening quote) and exactly one error. -/
theorem eof_in_string_state_reports_and_recovers_witness :
    tokenizeTokens "u" "\"xyz" = [.value (.str "xyz") ⟨1, 1⟩]
    ∧ tokenizeErrors "u" "\"xyz" =
      [lexErr "u" ⟨1, 1⟩ "xyz" .unexpectedEndOfString] := by
  have h := eof_in_string_state_reports_and_recovers "u" "\"xyz" ⟨1, 1⟩ "xyz"
    (Or.inl (by decide))
  exact ⟨h.1.trans (by decide), h.2.trans (by decide)⟩

/-- Witness for the amended C3 theorem, at the buffers `"zz"` (no
parseable prefix: string token plus `invalid token`) and `"1z"` (prefix
`1` parses: numeric token, no error). -/
theorem value_finalization_uses_parsefloat_witness :
    getResultValue "u" ⟨1, 1⟩ "zz" = (.str "zz", [lexErr "u" ⟨1, 1⟩ "zz" .invalidToken])
    ∧ getResultValue "u" ⟨1, 1⟩ "1z" = (.num (.finite 1), []) :=
  ⟨(value_finalization_uses_parsefloat.1 "u" ⟨1, 1⟩ "zz"
      (by decide) (by decide) (by decide)).2 (by decide),
   (value_finalization_uses_parsefloat.1 "u" ⟨1, 1⟩ "1z"
      (by decide) (by decide) (by decide)).1 (.finite 1) (by decide)⟩

theorem foldl_append_singleton :
    ∀ (es acc : List ParseError), es.foldl (fun l e => l ++ [e]) acc = acc ++ es
  | [], acc => by simp
  | e :: rest, acc => by simp [foldl_append_singleton rest]

theorem runPCB_eq {σ : Type _} (url : String) (rep : σ → ParseError → σ) :
    ∀ (evs : List LexEvent) (st : PState) (tv : Option Json) (acc : σ),
      runPCB url rep st tv acc evs
        = ((runP url st tv evs).1, (runP url st tv evs).2.foldl rep acc)
  | [], st, tv, acc => by simp [runPCB, runP]
  | .err e :: rest, st, tv, acc => by
      simp [runPCB, runP, runPCB_eq url rep rest st tv (rep acc e)]
  | .tok t :: rest, st, tv, acc => by
      cases st <;>
        simp [runPCB, runP, parserDone, runPCB_eq url rep rest, List.foldl_append]

theorem runPT_eq (url : String) :
    ∀ (evs : List LexEvent) (st : PState) (tv : Option Json),
      runPT url st tv evs =
        (match runP url st tv evs with
         | (v, []) => .ok v
         | (_, e :: _) => .error e)
  | [], st, tv => by
      cases hd : parserDone url st <;> simp [runPT, runP, hd]
  | .err e :: rest, st, tv => by
      simp [runPT, runP]
  | .tok t :: rest, st, tv => by
      cases st
      case inert => simp [runPT, runP, parserDone, partialValue]
      all_goals
        simp only [runPT, runP]
        split
        · rename_i st2 tv2 e tail hps
          simp [hps]
        · rename_i st2 tv2 hps
          simp [hps, runPT_eq url rest]

/-- C9: `parse` is deterministic and free of hidden mutable state: the
returned value does not depend on the error callback at all, every
callback receives exactly the canonical error sequence of the run, folded
in reporting order, and two runs with fresh list-collecting callbacks
coincide exactly (value, and errors with all their fields). -/
theorem parse_deterministic :
    ∀ (σ : Type) (rep : σ → ParseError → σ) (acc : σ) (url s : String),
      (parseCB rep acc url s).1 = (parseFull url s).1
      ∧ (parseCB rep acc url s).2 = (parseFull url s).2.foldl rep acc
      ∧ parseCB (fun (l : List ParseError) e => l ++ [e]) [] url s = parseFull url s := by
  have main : ∀ (σ : Type) (rep : σ → ParseError → σ) (acc : σ) (url s : String),
      (parseCB rep acc url s).1 = (parseFull url s).1
      ∧ (parseCB rep acc url s).2 = (parseFull url s).2.foldl rep acc := by
    intro σ rep acc url s
    unfold parseCB parseFull
    rw [runPCB_eq url rep (tokenizeEvents url s) (.value .top) none acc]
    rcases runP url (.value .top) none (tokenizeEvents url s) with ⟨v, errs⟩
    cases v <;> simp [List.foldl_append]
  intro σ rep acc url s
  refine ⟨(main σ rep acc url s).1, (main σ rep acc url s).2, ?_⟩
  have h := main (List ParseError) (fun l e => l ++ [e]) [] url s
  refine Prod.ext h.1 (h.2.trans ?_)
  simp [foldl_append_singleton]

/-- C10: with the error callback omitted, `tokenize` and `parse` default
to `defaultErrorReport`, which throws its argument: on any input whose
run reports at least one error, `parse` raises the first `ParseError`
reported (the rest of the run never happens), and on error-free inputs it
returns the same value as a collecting run. -/
theorem parse_default_report_throws_first_error :
    ∀ url s,
      ((parseFull url s).2 = [] → parseThrow url s = .ok (parseFull url s).1)
      ∧ (∀ e rest, (parseFull url s).2 = e :: rest → parseThrow url s = .error e) := by
  intro url s
  unfold parseThrow parseFull
  rw [runPT_eq url (tokenizeEvents url s) (.value .top) none]
  rcases runP url (.value .top) none (tokenizeEvents url s) with ⟨v, errs⟩
  cases errs with
  | nil =>
    cases v with
    | none => exact ⟨fun h => absurd h (by simp), fun e rest h => by
        simp at h
        simp [h.1]⟩
    | some j => exact ⟨fun _ => rfl, fun e rest h => by simp at h⟩
  | cons e0 tail =>
    cases v with
    | none => exact ⟨fun h => absurd h (by simp), fun e rest h => by
        simp at h
        simp [h.1]⟩
    | some j => exact ⟨fun h => absurd h (by simp), fun e rest h => by
        simp at h
        simp [h.1]⟩

/-- Witness for the C10 theorem: the empty input reports one error, so
the defaulted callback raises it; `"null"` reports none, so the defaulted
callback returns the value. -/
theorem parse_default_report_throws_first_error_witness :
    parseThrow "u" "" = .error (structErr "u" ⟨1, 1⟩ "" .unexpectedEndOfFile)
    ∧ parseThrow "u" "null" = .ok Json.null :=
  ⟨(parse_default_report_throws_first_error "u" "").2
      (structErr "u" ⟨1, 1⟩ "" .unexpectedEndOfFile) [] rfl,
   (parse_default_report_throws_first_error "u" "null").1 rfl⟩

end JsonParser

namespace JsonParser
open Ref

theorem runToks_inert (url : String) (tv : Option Json) :
    ∀ l, runToks url .inert tv l = (.inert, tv, [])
  | [] => rfl
  | _ :: _ => rfl

theorem runToks_cons_step (url : String) {st : PState} (hne : st ≠ .inert)
    (tv : Option Json) (t : JsonToken) (l : List JsonToken) :
    runToks url st tv (t :: l) =
      (let (st2, tv2, errs) := parseStep url st tv t
       let (st3, tv3, errs2) := runToks url st2 tv2 l
       (st3, tv3, errs ++ errs2)) := by
  cases st <;> first | exact absurd rfl hne | rfl

theorem runToks_append (url : String) :
    ∀ (l1 l2 : List JsonToken) (st : PState) (tv : Option Json),
      runToks url st tv (l1 ++ l2) =
        (let (s1, t1, e1) := runToks url st tv l1
         let (s2, t2, e2) := runToks url s1 t1 l2
         (s2, t2, e1 ++ e2))
  | [], l2, st, tv => by simp [runToks]
  | t :: l1, l2, st, tv => by
    cases st
    case inert => simp [runToks_inert]
    all_goals
      simp only [List.cons_append, runToks]
      rcases parseStep url _ tv t with ⟨st2, tv2, errs⟩
      simp only [List.append_eq]
      rw [runToks_append url l1 l2 st2 tv2]
      rcases h1 : runToks url st2 tv2 l1 with ⟨s1, t1, e1⟩
      rcases h2 : runToks url s1 t1 l2 with ⟨s2, t2, e2⟩
      simp [h1, h2]

theorem strip_val {t : JsonToken} {v : JsonPrim} (h : strip t = .val v) :
    ∃ p, t = .value v p := by
  cases t with
  | sym c p => simp [strip] at h
  | value w p => simp [strip] at h; exact ⟨p, by rw [h]⟩

theorem strip_sym {t : JsonToken} {c : Char} (h : strip t = .sym c) :
    ∃ p, t = .sym c p := by
  cases t with
  | sym c2 p => simp [strip] at h; exact ⟨p, by rw [h]⟩
  | value w p => simp [strip] at h

theorem map_strip_cons {T : List JsonToken} {x : RefTok} {R : List RefTok}
    (h : T.map strip = x :: R) :
    ∃ t T2, T = t :: T2 ∧ strip t = x ∧ T2.map strip = R := by
  cases T with
  | nil => simp at h
  | cons t T2 =>
    simp at h
    exact ⟨t, T2, rfl, h.1, h.2⟩

end JsonParser

namespace JsonParser
open Ref

theorem pstep_value_val (url : String) (k : Cont) (tv : Option Json)
    (pv : JsonPrim) (p : FilePosition) :
    parseStep url (.value k) tv (.value pv p)
      = ((deliver pv.toJson k tv).1, (deliver pv.toJson k tv).2, []) := by
  rcases hd : deliver pv.toJson k tv with ⟨st2, tv2⟩
  simp [parseStep, valueNext, hd]

theorem pstep_value_obrace (url : String) (k : Cont) (tv : Option Json)
    (p : FilePosition) :
    parseStep url (.value k) tv (.sym '{' p) = (.objOpen [] p k, tv, []) := rfl

theorem pstep_value_obracket (url : String) (k : Cont) (tv : Option Json)
    (p : FilePosition) :
    parseStep url (.value k) tv (.sym '[' p) = (.arrOpen [] p k, tv, []) := rfl

theorem pstep_objOpen_cbrace (url : String) (entries : List (String × Json))
    (pos : FilePosition) (k : Cont) (tv : Option Json) (p : FilePosition) :
    parseStep url (.objOpen entries pos k) tv (.sym '}' p)
      = ((deliver (.obj entries) k tv).1, (deliver (.obj entries) k tv).2, []) := by
  rcases hd : deliver (Json.obj entries) k tv with ⟨st2, tv2⟩
  simp [parseStep, hd]

theorem pstep_objOpen_key (url : String) (entries : List (String × Json))
    (pos : FilePosition) (k : Cont) (tv : Option Json) (s : String) (p : FilePosition) :
    parseStep url (.objOpen entries pos k) tv (.value (.str s) p)
      = (.propColon entries pos k s, tv, []) := rfl

theorem pstep_propKey_key (url : String) (entries : List (String × Json))
    (pos : FilePosition) (k : Cont) (tv : Option Json) (s : String) (p : FilePosition) :
    parseStep url (.propKey entries pos k) tv (.value (.str s) p)
      = (.propColon entries pos k s, tv, []) := rfl

theorem pstep_propColon_colon (url : String) (entries : List (String × Json))
    (pos : FilePosition) (k : Cont) (name : String) (tv : Option Json) (p : FilePosition) :
    parseStep url (.propColon entries pos k name) tv (.sym ':' p)
      = (.value (.objC entries name pos k), tv, []) := rfl

theorem pstep_objSep_cbrace (url : String) (entries : List (String × Json))
    (pos : FilePosition) (k : Cont) (tv : Option Json) (p : FilePosition) :
    parseStep url (.objSep entries pos k) tv (.sym '}' p)
      = ((deliver (.obj entries) k tv).1, (deliver (.obj entries) k tv).2, []) := by
  rcases hd : deliver (Json.obj entries) k tv with ⟨st2, tv2⟩
  simp [parseStep, hd]

theorem pstep_objSep_comma (url : String) (entries : List (String × Json))
    (pos : FilePosition) (k : Cont) (tv : Option Json) (p : FilePosition) :
    parseStep url (.objSep entries pos k) tv (.sym ',' p)
      = (.propKey entries pos k, tv, []) := rfl

theorem pstep_arrOpen_cbracket (url : String) (items : List Json)
    (pos : FilePosition) (k : Cont) (tv : Option Json) (p : FilePosition) :
    parseStep url (.arrOpen items pos k) tv (.sym ']' p)
      = ((deliver (.arr items) k tv).1, (deliver (.arr items) k tv).2, []) := by
  rcases hd : deliver (Json.arr items) k tv with ⟨st2, tv2⟩
  simp [parseStep, hd]

theorem pstep_arrOpen_val (url : String) (items : List Json)
    (pos : FilePosition) (k : Cont) (tv : Option Json) (pv : JsonPrim) (p : FilePosition) :
    parseStep url (.arrOpen items pos k) tv (.value pv p)
      = parseStep url (.value (.arrC items pos k)) tv (.value pv p) := rfl

theorem pstep_arrOpen_obrace (url : String) (items : List Json)
    (pos : FilePosition) (k : Cont) (tv : Option Json) (p : FilePosition) :
    parseStep url (.arrOpen items pos k) tv (.sym '{' p)
      = parseStep url (.value (.arrC items pos k)) tv (.sym '{' p) := rfl

theorem pstep_arrOpen_obracket (url : String) (items : List Json)
    (pos : FilePosition) (k : Cont) (tv : Option Json) (p : FilePosition) :
    parseStep url (.arrOpen items pos k) tv (.sym '[' p)
      = parseStep url (.value (.arrC items pos k)) tv (.sym '[' p) := rfl

theorem pstep_arrSep_cbracket (url : String) (items : List Json)
    (pos : FilePosition) (k : Cont) (tv : Option Json) (p : FilePosition) :
    parseStep url (.arrSep items pos k) tv (.sym ']' p)
      = ((deliver (.arr items) k tv).1, (deliver (.arr items) k tv).2, []) := by
  rcases hd : deliver (Json.arr items) k tv with ⟨st2, tv2⟩
  simp [parseStep, hd]

theorem pstep_arrSep_comma (url : String) (items : List Json)
    (pos : FilePosition) (k : Cont) (tv : Option Json) (p : FilePosition) :
    parseStep url (.arrSep items pos k) tv (.sym ',' p)
      = (.value (.arrC items pos k), tv, []) := rfl

end JsonParser

namespace JsonParser
open Ref

theorem runToks_single (url : String) {st : PState} (hne : st ≠ .inert)
    (tv : Option Json) (t : JsonToken) :
    runToks url st tv [t] = parseStep url st tv t := by
  cases st <;>
    first
      | exact absurd rfl hne
      | (rcases h : parseStep url _ tv t with ⟨a, b, c⟩; simp [runToks, h])

theorem runToks_cons_noerr (url : String) {st : PState} (hne : st ≠ .inert)
    {tv : Option Json} {t : JsonToken} {st2 : PState} {tv2 : Option Json}
    (hstep : parseStep url st tv t = (st2, tv2, [])) (l : List JsonToken) :
    runToks url st tv (t :: l) = runToks url st2 tv2 l := by
  cases st <;>
    first
      | exact absurd rfl hne
      | (rcases h : runToks url st2 tv2 l with ⟨a, b, c⟩; simp [runToks, hstep, h])

theorem runToks_chain (url : String) {st : PState} {tv : Option Json}
    {l1 : List JsonToken} {st1 : PState} {tv1 : Option Json}
    (h1 : runToks url st tv l1 = (st1, tv1, [])) (l2 : List JsonToken) :
    runToks url st tv (l1 ++ l2) = runToks url st1 tv1 l2 := by
  rw [runToks_append url l1 l2 st tv, h1]
  rcases h2 : runToks url st1 tv1 l2 with ⟨a, b, c⟩
  simp [h2]

theorem assignProp_ne_proto (entries : List (String × Json)) (name : String)
    (v : Json) (h : ¬name = "__proto__") :
    assignProp entries name v = setProp entries name v := if_neg h

theorem refTok_machine_sim (url : String) : ∀ f : Nat,
    (∀ (T : List JsonToken) (v : Json) (R : List RefTok) (k : Cont) (tv : Option Json),
      (∀ t ∈ T, strip t ≠ .val (.str "__proto__")) →
      refTokVal f (T.map strip) = some (v, R) →
      ∃ T1 T2, T = T1 ++ T2 ∧ T2.map strip = R
        ∧ runToks url (.value k) tv T1 = ((deliver v k tv).1, (deliver v k tv).2, [])
        ∧ ∀ items pos2 k2, k = .arrC items pos2 k2 →
            runToks url (.arrOpen items pos2 k2) tv T1
              = ((deliver v k tv).1, (deliver v k tv).2, []))
    ∧ (∀ (T : List JsonToken) (v : Json) (R : List RefTok) (pos : FilePosition)
        (k : Cont) (tv : Option Json),
      (∀ t ∈ T, strip t ≠ .val (.str "__proto__")) →
      refTokObjStart f (T.map strip) = some (v, R) →
      ∃ T1 T2, T = T1 ++ T2 ∧ T2.map strip = R
        ∧ runToks url (.objOpen [] pos k) tv T1
            = ((deliver v k tv).1, (deliver v k tv).2, []))
    ∧ (∀ (T : List JsonToken) (entries : List (String × Json)) (v : Json)
        (R : List RefTok) (pos : FilePosition) (k : Cont) (tv : Option Json),
      (∀ t ∈ T, strip t ≠ .val (.str "__proto__")) →
      refTokMembers f (T.map strip) entries = some (v, R) →
      ∃ T1 T2, T = T1 ++ T2 ∧ T2.map strip = R
        ∧ runToks url (.propKey entries pos k) tv T1
            = ((deliver v k tv).1, (deliver v k tv).2, [])
        ∧ runToks url (.objOpen entries pos k) tv T1
            = ((deliver v k tv).1, (deliver v k tv).2, []))
    ∧ (∀ (T : List JsonToken) (v : Json) (R : List RefTok) (pos : FilePosition)
        (k : Cont) (tv : Option Json),
      (∀ t ∈ T, strip t ≠ .val (.str "__proto__")) →
      refTokArrStart f (T.map strip) = some (v, R) →
      ∃ T1 T2, T = T1 ++ T2 ∧ T2.map strip = R
        ∧ runToks url (.arrOpen [] pos k) tv T1
            = ((deliver v k tv).1, (deliver v k tv).2, []))
    ∧ (∀ (T : List JsonToken) (items : List Json) (v : Json) (R : List RefTok)
        (pos : FilePosition) (k : Cont) (tv : Option Json),
      (∀ t ∈ T, strip t ≠ .val (.str "__proto__")) →
      refTokItems f (T.map strip) items = some (v, R) →
      ∃ T1 T2, T = T1 ++ T2 ∧ T2.map strip = R
        ∧ runToks url (.value (.arrC items pos k)) tv T1
            = ((deliver v k tv).1, (deliver v k tv).2, [])
        ∧ runToks url (.arrOpen items pos k) tv T1
            = ((deliver v k tv).1, (deliver v k tv).2, [])) := by
  intro f
  induction f with
  | zero =>
    refine ⟨?_, ?_, ?_, ?_, ?_⟩
    · intro T v R k tv _ h
      match T, h with
      | [], h => simp [refTokVal] at h
      | .sym c p :: T', h => simp [refTokVal, strip] at h
      | .value pv p :: T', h =>
        simp only [List.map, strip, refTokVal, Option.some.injEq, Prod.mk.injEq] at h
        obtain ⟨hv, hR⟩ := h
        subst hv
        refine ⟨[.value pv p], T', rfl, hR, ?_, ?_⟩
        · exact (runToks_single url (fun hx => PState.noConfusion hx) tv _).trans (pstep_value_val url k tv pv p)
        · intro items pos2 k2 heq
          subst heq
          exact (runToks_single url (fun hx => PState.noConfusion hx) tv _).trans
            ((pstep_arrOpen_val url items pos2 k2 tv pv p).trans
              (pstep_value_val url _ tv pv p))
    · intro T v R pos k tv _ h
      simp [refTokObjStart] at h
    · intro T entries v R pos k tv _ h
      simp [refTokMembers] at h
    · intro T v R pos k tv _ h
      simp [refTokArrStart] at h
    · intro T items v R pos k tv _ h
      simp [refTokItems] at h
  | succ f ih =>
    obtain ⟨ihV, ihO, ihM, ihA, ihI⟩ := ih
    refine ⟨?_, ?_, ?_, ?_, ?_⟩
    · -- refTokVal
      intro T v R k tv hpf h
      match T, hpf, h with
      | [], _, h => simp [refTokVal] at h
      | .value pv p :: T', _, h =>
        simp only [List.map, strip, refTokVal, Option.some.injEq, Prod.mk.injEq] at h
        obtain ⟨hv, hR⟩ := h
        subst hv
        refine ⟨[.value pv p], T', rfl, hR, ?_, ?_⟩
        · exact (runToks_single url (fun hx => PState.noConfusion hx) tv _).trans (pstep_value_val url k tv pv p)
        · intro items pos2 k2 heq
          subst heq
          exact (runToks_single url (fun hx => PState.noConfusion hx) tv _).trans
            ((pstep_arrOpen_val url items pos2 k2 tv pv p).trans
              (pstep_value_val url _ tv pv p))
      | .sym c p :: T', hpf, h =>
        simp only [List.map, strip, refTokVal] at h
        by_cases hc : c = '{'
        · subst hc
          rw [if_pos rfl] at h
          obtain ⟨T1', T2', hT, hR, hrun⟩ :=
            ihO T' v R p k tv (fun t ht => hpf t (List.mem_cons_of_mem _ ht)) h
          refine ⟨.sym '{' p :: T1', T2', by simp [hT], hR, ?_, ?_⟩
          · rw [runToks_cons_noerr url (fun hx => PState.noConfusion hx) (pstep_value_obrace url k tv p) T1']
            exact hrun
          · intro items pos2 k2 heq
            subst heq
            rw [runToks_cons_noerr url (fun hx => PState.noConfusion hx)
              ((pstep_arrOpen_obrace url items pos2 k2 tv p).trans
                (pstep_value_obrace url _ tv p)) T1']
            exact hrun
        · by_cases hc2 : c = '['
          · subst hc2
            rw [if_neg hc, if_pos rfl] at h
            obtain ⟨T1', T2', hT, hR, hrun⟩ :=
              ihA T' v R p k tv (fun t ht => hpf t (List.mem_cons_of_mem _ ht)) h
            refine ⟨.sym '[' p :: T1', T2', by simp [hT], hR, ?_, ?_⟩
            · rw [runToks_cons_noerr url (fun hx => PState.noConfusion hx) (pstep_value_obracket url k tv p) T1']
              exact hrun
            · intro items pos2 k2 heq
              subst heq
              rw [runToks_cons_noerr url (fun hx => PState.noConfusion hx)
                ((pstep_arrOpen_obracket url items pos2 k2 tv p).trans
                  (pstep_value_obracket url _ tv p)) T1']
              exact hrun
          · rw [if_neg hc, if_neg hc2] at h
            exact absurd h (by simp)
    · -- refTokObjStart
      intro T v R pos k tv hpf h
      match T, hpf, h with
      | [], _, h => simp [refTokObjStart, refTokMembers] at h
      | .value pv p :: T', hpf, h =>
        obtain ⟨T1, T2, hT, hR, hrunPK, hrunOO⟩ :=
          ihM (.value pv p :: T') [] v R pos k tv hpf
            (by simpa [refTokObjStart, strip] using h)
        exact ⟨T1, T2, hT, hR, hrunOO⟩
      | .sym c p :: T', hpf, h =>
        by_cases hc : c = '}'
        · subst hc
          simp only [List.map, strip, refTokObjStart, if_pos,
            Option.some.injEq, Prod.mk.injEq] at h
          obtain ⟨hv, hR⟩ := h
          subst hv
          refine ⟨[.sym '}' p], T', rfl, hR, ?_⟩
          exact (runToks_single url (fun hx => PState.noConfusion hx) tv _).trans
            (pstep_objOpen_cbrace url [] pos k tv p)
        · have h2 : refTokMembers f ((JsonToken.sym c p :: T').map strip) [] = some (v, R) := by
            simpa [refTokObjStart, strip, hc] using h
          obtain ⟨T1, T2, hT, hR, hrunPK, hrunOO⟩ :=
            ihM (.sym c p :: T') [] v R pos k tv hpf h2
          exact ⟨T1, T2, hT, hR, hrunOO⟩
    · -- refTokMembers
      intro T entries v R pos k tv hpf h
      match T, hpf, h with
      | [], _, h => simp [refTokMembers] at h
      | .sym c0 p0 :: T', _, h => simp [refTokMembers, strip] at h
      | .value .null p0 :: T', _, h => simp [refTokMembers, strip] at h
      | .value (.bool b) p0 :: T', _, h => simp [refTokMembers, strip] at h
      | .value (.num n) p0 :: T', _, h => simp [refTokMembers, strip] at h
      | [.value (.str s) p0], _, h => simp [refTokMembers, strip] at h
      | .value (.str s) p0 :: .value pv1 p1 :: T'', _, h => simp [refTokMembers, strip] at h
      | .value (.str s) p0 :: .sym c1 p1 :: T'', hpf, h =>
        by_cases hc1 : c1 = ':'
        · subst hc1
          have hne_s : ¬s = "__proto__" := fun heq =>
            hpf (.value (.str s) p0) (by simp) (by rw [heq]; rfl)
          simp only [List.map, strip, refTokMembers, if_pos] at h
          cases hv : refTokVal f (T''.map strip) with
          | none => rw [hv] at h; exact absurd h (by simp)
          | some pr =>
            rcases pr with ⟨v2, r2⟩
            rw [hv] at h
            obtain ⟨T1v, T2v, hTv, hRv, hrunv, -⟩ :=
              ihV T'' v2 r2 (.objC entries s pos k) tv
                (fun t ht => hpf t
                  (List.mem_cons_of_mem _ (List.mem_cons_of_mem _ ht))) hv
            have hdel : deliver v2 (.objC entries s pos k) tv
                = (.objSep (setProp entries s v2) pos k, tv) := by
              simp [deliver, assignProp, hne_s]
            rw [hdel] at hrunv
            match r2, hRv, h with
            | [], hRv, h => simp at h
            | .val _ :: r3, hRv, h => simp at h
            | .sym c2 :: r3, hRv, h =>
              obtain ⟨t2x, T2v', hT2v, hstrip2, hR3⟩ := map_strip_cons hRv
              obtain ⟨p2, ht2⟩ := strip_sym hstrip2
              subst ht2
              by_cases hc2 : c2 = '}'
              · subst hc2
                simp only [if_pos, Option.some.injEq, Prod.mk.injEq] at h
                obtain ⟨hveq, hReq⟩ := h
                subst hveq
                refine ⟨.value (.str s) p0 :: .sym ':' p1 :: (T1v ++ [.sym '}' p2]),
                  T2v', by simp [hTv, hT2v], by rw [hR3, hReq], ?_, ?_⟩
                · rw [runToks_cons_noerr url (fun hx => PState.noConfusion hx)
                    (pstep_propKey_key url entries pos k tv s p0) _]
                  rw [runToks_cons_noerr url (fun hx => PState.noConfusion hx)
                    (pstep_propColon_colon url entries pos k s tv p1) _]
                  rw [runToks_chain url hrunv [JsonToken.sym '}' p2]]
                  exact (runToks_single url (fun hx => PState.noConfusion hx) tv _).trans
                    (pstep_objSep_cbrace url (setProp entries s v2) pos k tv p2)
                · rw [runToks_cons_noerr url (fun hx => PState.noConfusion hx)
                    (pstep_objOpen_key url entries pos k tv s p0) _]
                  rw [runToks_cons_noerr url (fun hx => PState.noConfusion hx)
                    (pstep_propColon_colon url entries pos k s tv p1) _]
                  rw [runToks_chain url hrunv [JsonToken.sym '}' p2]]
                  exact (runToks_single url (fun hx => PState.noConfusion hx) tv _).trans
                    (pstep_objSep_cbrace url (setProp entries s v2) pos k tv p2)
              · by_cases hc2b : c2 = ','
                · subst hc2b
                  simp only [if_neg hc2, if_pos] at h
                  have h3 : refTokMembers f (T2v'.map strip) (setProp entries s v2)
                      = some (v, R) := by rw [hR3]; exact h
                  obtain ⟨T1m, T2m, hTm, hRm, hrunm, -⟩ :=
                    ihM T2v' (setProp entries s v2) v R pos k tv
                      (fun t ht => hpf t (by rw [hTv, hT2v]; simp [ht])) h3
                  refine ⟨.value (.str s) p0 :: .sym ':' p1 :: (T1v ++ .sym ',' p2 :: T1m),
                    T2m, by simp [hTv, hT2v, hTm], hRm, ?_, ?_⟩
                  · rw [runToks_cons_noerr url (fun hx => PState.noConfusion hx)
                      (pstep_propKey_key url entries pos k tv s p0) _]
                    rw [runToks_cons_noerr url (fun hx => PState.noConfusion hx)
                      (pstep_propColon_colon url entries pos k s tv p1) _]
                    rw [runToks_chain url hrunv (JsonToken.sym ',' p2 :: T1m)]
                    rw [runToks_cons_noerr url (fun hx => PState.noConfusion hx)
                      (pstep_objSep_comma url (setProp entries s v2) pos k tv p2) _]
                    exact hrunm
                  · rw [runToks_cons_noerr url (fun hx => PState.noConfusion hx)
                      (pstep_objOpen_key url entries pos k tv s p0) _]
                    rw [runToks_cons_noerr url (fun hx => PState.noConfusion hx)
                      (pstep_propColon_colon url entries pos k s tv p1) _]
                    rw [runToks_chain url hrunv (JsonToken.sym ',' p2 :: T1m)]
                    rw [runToks_cons_noerr url (fun hx => PState.noConfusion hx)
                      (pstep_objSep_comma url (setProp entries s v2) pos k tv p2) _]
                    exact hrunm
                · simp only [if_neg hc2, if_neg hc2b] at h
                  exact Option.noConfusion h
        · simp [refTokMembers, strip, hc1] at h
    · -- refTokArrStart
      intro T v R pos k tv hpf h
      match T, hpf, h with
      | [], _, h =>
        cases f with
        | zero => simp [refTokArrStart, refTokItems] at h
        | succ g => simp [refTokArrStart, refTokItems, refTokVal] at h
      | .value pv p :: T', hpf, h =>
        obtain ⟨T1, T2, hT, hR, hrunV, hrunAO⟩ :=
          ihI (.value pv p :: T') [] v R pos k tv hpf
            (by simpa [refTokArrStart, strip] using h)
        exact ⟨T1, T2, hT, hR, hrunAO⟩
      | .sym c p :: T', hpf, h =>
        by_cases hc : c = ']'
        · subst hc
          simp only [List.map, strip, refTokArrStart, if_pos,
            Option.some.injEq, Prod.mk.injEq] at h
          obtain ⟨hv, hR⟩ := h
          subst hv
          refine ⟨[.sym ']' p], T', rfl, hR, ?_⟩
          exact (runToks_single url (fun hx => PState.noConfusion hx) tv _).trans
            (pstep_arrOpen_cbracket url [] pos k tv p)
        · have h2 : refTokItems f ((JsonToken.sym c p :: T').map strip) [] = some (v, R) := by
            simpa [refTokArrStart, strip, hc] using h
          obtain ⟨T1, T2, hT, hR, hrunV, hrunAO⟩ :=
            ihI (.sym c p :: T') [] v R pos k tv hpf h2
          exact ⟨T1, T2, hT, hR, hrunAO⟩
    · -- refTokItems
      intro T items v R pos k tv hpf h
      simp only [refTokItems] at h
      cases hv : refTokVal f (T.map strip) with
      | none => rw [hv] at h; exact absurd h (by simp)
      | some pr =>
        rcases pr with ⟨v2, r⟩
        rw [hv] at h
        obtain ⟨T1v, T2v, hTv, hRv, hrunv, hrunvAO⟩ :=
          ihV T v2 r (.arrC items pos k) tv hpf hv
        have hdel : deliver v2 (.arrC items pos k) tv
            = (.arrSep (items ++ [v2]) pos k, tv) := rfl
        rw [hdel] at hrunv
        have hrunAO := hrunvAO items pos k rfl
        rw [hdel] at hrunAO
        match r, hRv, h with
        | [], hRv, h => simp at h
        | .val _ :: r2, hRv, h => simp at h
        | .sym c2 :: r2, hRv, h =>
          obtain ⟨t2x, T2v', hT2v, hstrip2, hR2⟩ := map_strip_cons hRv
          obtain ⟨p2, ht2⟩ := strip_sym hstrip2
          subst ht2
          by_cases hc2 : c2 = ']'
          · subst hc2
            simp only [if_pos, Option.some.injEq, Prod.mk.injEq] at h
            obtain ⟨hveq, hReq⟩ := h
            subst hveq
            refine ⟨T1v ++ [.sym ']' p2], T2v', by simp [hTv, hT2v],
              by rw [hR2, hReq], ?_, ?_⟩
            · rw [runToks_chain url hrunv [JsonToken.sym ']' p2]]
              exact (runToks_single url (fun hx => PState.noConfusion hx) tv _).trans
                (pstep_arrSep_cbracket url (items ++ [v2]) pos k tv p2)
            · rw [runToks_chain url hrunAO [JsonToken.sym ']' p2]]
              exact (runToks_single url (fun hx => PState.noConfusion hx) tv _).trans
                (pstep_arrSep_cbracket url (items ++ [v2]) pos k tv p2)
          · by_cases hc2b : c2 = ','
            · subst hc2b
              simp only [if_neg hc2, if_pos] at h
              have h3 : refTokItems f (T2v'.map strip) (items ++ [v2]) = some (v, R) := by
                rw [hR2]; exact h
              obtain ⟨T1i, T2i, hTi, hRi, hruni, -⟩ :=
                ihI T2v' (items ++ [v2]) v R pos k tv
                  (fun t ht => hpf t (by rw [hTv, hT2v]; simp [ht])) h3
              refine ⟨T1v ++ .sym ',' p2 :: T1i, T2i, by simp [hTv, hT2v, hTi], hRi, ?_, ?_⟩
              · rw [runToks_chain url hrunv (JsonToken.sym ',' p2 :: T1i)]
                rw [runToks_cons_noerr url (fun hx => PState.noConfusion hx)
                  (pstep_arrSep_comma url (items ++ [v2]) pos k tv p2) _]
                exact hruni
              · rw [runToks_chain url hrunAO (JsonToken.sym ',' p2 :: T1i)]
                rw [runToks_cons_noerr url (fun hx => PState.noConfusion hx)
                  (pstep_arrSep_comma url (items ++ [v2]) pos k tv p2) _]
                exact hruni
            · simp only [if_neg hc2, if_neg hc2b] at h
              exact Option.noConfusion h

end JsonParser

namespace JsonParser
open Ref

theorem fullLex_nil (url : String) (st : LexState) :
    fullLex url st [] = doneEvents url st := by
  simp [fullLex, lexFold]

theorem fullLex_cons (url : String) (st : LexState) (cp : CharAndPosition)
    (pcs : List CharAndPosition) :
    fullLex url st (cp :: pcs) =
      stepEvents (lexNext url st cp) ++ fullLex url (lexNext url st cp).state pcs := by
  rcases h : lexFold url (lexNext url st cp).state pcs with ⟨evs, fin⟩
  simp [fullLex, lexFold, h]

theorem isWhiteSpaceChar_cases {c : Char} (h : isWhiteSpaceChar c = true) :
    c = ' ' ∨ c = '\t' ∨ c = '\r' ∨ c = '\n' := by
  simp only [isWhiteSpaceChar, Bool.or_eq_true, decide_eq_true_eq] at h
  tauto

theorem isSymbolChar_cases {c : Char} (h : isSymbolChar c = true) :
    c = '{' ∨ c = '}' ∨ c = '[' ∨ c = ']' ∨ c = ',' ∨ c = ':' := by
  simp only [isSymbolChar, Bool.or_eq_true, decide_eq_true_eq] at h
  tauto

theorem wsNext_ws {c : Char} (h : isWhiteSpaceChar c = true) (url : String)
    (p : FilePosition) : wsNext url ⟨c, p⟩ = ⟨[], [], .ws⟩ := by
  rcases isWhiteSpaceChar_cases h with rfl | rfl | rfl | rfl <;> rfl

theorem wsNext_sym {c : Char} (h : isSymbolChar c = true) (url : String)
    (p : FilePosition) : wsNext url ⟨c, p⟩ = ⟨[.sym c p], [], .ws⟩ := by
  rcases isSymbolChar_cases h with rfl | rfl | rfl | rfl | rfl | rfl <;> rfl

theorem jsonValue_facts {c : Char} (h : isJsonValueChar c = true) :
    ¬c = '"' ∧ isSymbolChar c = false := by
  constructor
  · rintro rfl
    exact absurd h (by decide)
  · by_contra hs
    rcases isSymbolChar_cases (by simpa using hs) with rfl | rfl | rfl | rfl | rfl | rfl <;>
      exact absurd h (by decide)

theorem wsNext_val {c : Char} (h : isJsonValueChar c = true) (url : String)
    (p : FilePosition) :
    wsNext url ⟨c, p⟩ = ⟨[], [], .valS p (String.singleton c)⟩ := by
  obtain ⟨hq, hs⟩ := jsonValue_facts h
  simp [wsNext, hq, hs, h]

theorem wsNext_quote (url : String) (p : FilePosition) :
    wsNext url ⟨'"', p⟩ = ⟨[], [], .strS p ""⟩ := rfl

theorem lexNext_strS_normal {c : Char} (hq : ¬c = '"') (hb : ¬c = '\\')
    (hctl : isControl c = false) (url : String) (pos : FilePosition)
    (v : String) (p : FilePosition) :
    lexNext url (.strS pos v) ⟨c, p⟩ = ⟨[], [], .strS pos (v.push c)⟩ := by
  simp [lexNext, hq, hb, hctl]

theorem refEscape_escapeMapF {e d : Char} (h : refEscape e = some d) :
    escapeMapF e = some d := by
  unfold refEscape at h
  split_ifs at h with h1 h2 h3 h4 h5 h6 h7 h8 <;>
    first
      | exact Option.noConfusion h
      | (injection h with h
         subst h
         first
           | (subst h1; rfl) | (subst h2; rfl) | (subst h3; rfl) | (subst h4; rfl)
           | (subst h5; rfl) | (subst h6; rfl) | (subst h7; rfl) | (subst h8; rfl))

theorem refEscape_ne_u {e d : Char} (h : refEscape e = some d) : ¬e = 'u' := by
  rintro rfl
  exact Option.noConfusion h

theorem push_mk (a : String) (ch : Char) (l : List Char) :
    a.push ch ++ String.mk l = a ++ String.mk (ch :: l) := by
  apply String.ext
  simp

theorem refString_sublist :
    ∀ (cs : List Char) {s r : List Char}, refString cs = some (s, r) →
      ∀ x ∈ r, x ∈ cs
  | [], s, r, h => by simp [refString] at h
  | c :: rest, s, r, h => by
    unfold refString at h
    split_ifs at h with h1 h2 h3
    · simp only [Option.some.injEq, Prod.mk.injEq] at h
      obtain ⟨rfl, rfl⟩ := h
      exact fun x hx => List.mem_cons_of_mem _ hx
    · split at h
      · exact Option.noConfusion h
      · rename_i e r2
        split_ifs at h with he
        · split at h
          · rename_i d1 d2 d3 d4 r4
            split at h
            · rename_i h1v h2v h3v h4v
              rw [Option.map_eq_some'] at h
              obtain ⟨⟨s4, r4'⟩, hrec, hmk⟩ := h
              simp only [Prod.mk.injEq] at hmk
              obtain ⟨rfl, rfl⟩ := hmk
              intro x hx
              have hm := refString_sublist r4 hrec x hx
              simp only [List.mem_cons] at hm ⊢
              tauto
            · exact Option.noConfusion h
          · exact Option.noConfusion h
        · split at h
          · rename_i d hd
            rw [Option.map_eq_some'] at h
            obtain ⟨⟨s4, r4'⟩, hrec, hmk⟩ := h
            simp only [Prod.mk.injEq] at hmk
            obtain ⟨rfl, rfl⟩ := hmk
            intro x hx
            have hm := refString_sublist r2 hrec x hx
            simp only [List.mem_cons] at hm ⊢
            tauto
          · exact Option.noConfusion h
    all_goals
      first
        | exact Option.noConfusion h
        | (rw [Option.map_eq_some'] at h
           obtain ⟨⟨s4, r4'⟩, hrec, hmk⟩ := h
           simp only [Prod.mk.injEq] at hmk
           obtain ⟨rfl, rfl⟩ := hmk
           intro x hx
           have hm := refString_sublist rest hrec x hx
           simp only [List.mem_cons] at hm ⊢
           tauto)

end JsonParser

namespace JsonParser
open Ref

theorem refHexVal_eq_hexMapF : refHexVal = hexMapF := rfl

theorem refHexVal_ne_nl {d : Char} {h : Nat} (hh : refHexVal d = some h) :
    ¬d = '\n' := by
  rintro rfl
  exact Option.noConfusion hh

theorem refEscape_ne_nl {e d : Char} (h : refEscape e = some d) : ¬e = '\n' := by
  rintro rfl
  exact Option.noConfusion h

theorem append_mk_nil (v0 : String) : v0 ++ String.mk [] = v0 := by
  apply String.ext
  simp [String.mk]

theorem refString_fullLex :
    ∀ (rest : List Char) {s r : List Char}, refString rest = some (s, r) →
      (∀ ch ∈ rest, ch.toNat ≠ 0x7f) →
      ∀ (url : String) (pos : FilePosition) (v0 : String) (l c : Nat),
        ∃ l2 c2,
          fullLex url (.strS pos v0) (addPositionAux l c rest)
            = .tok (.value (.str (v0 ++ String.mk s)) pos)
              :: fullLex url .ws (addPositionAux l2 c2 r)
  | [], s, r, h, _, _, _, _, _, _ => by simp [refString] at h
  | q :: rest, s, r, h, hdel, url, pos, v0, l, c => by
    unfold refString at h
    split_ifs at h with h1 h2 h3
    · -- closing quote
      subst h1
      simp only [Option.some.injEq, Prod.mk.injEq] at h
      obtain ⟨rfl, rfl⟩ := h
      refine ⟨l, c + 1, ?_⟩
      simp [addPositionAux, fullLex_cons, lexNext, stepEvents, append_mk_nil]
    · -- backslash
      subst h2
      split at h
      · exact Option.noConfusion h
      rename_i e r2
      by_cases he : e = 'u'
      · subst he
        rw [if_pos rfl] at h
        split at h
        rotate_left
        · exact Option.noConfusion h
        rename_i d1 d2 d3 d4 r4
        split at h
        rotate_left
        · exact Option.noConfusion h
        rename_i v1 v2 v3 v4 hh1 hh2 hh3 hh4
        rw [Option.map_eq_some'] at h
        obtain ⟨⟨s4, r4'⟩, hrec, hmk⟩ := h
        simp only [Prod.mk.injEq] at hmk
        obtain ⟨rfl, rfl⟩ := hmk
        have hd1 := refHexVal_ne_nl hh1
        have hd2 := refHexVal_ne_nl hh2
        have hd3 := refHexVal_ne_nl hh3
        have hd4 := refHexVal_ne_nl hh4
        have hm1 : hexMapF d1 = some v1 := refHexVal_eq_hexMapF ▸ hh1
        have hm2 : hexMapF d2 = some v2 := refHexVal_eq_hexMapF ▸ hh2
        have hm3 : hexMapF d3 = some v3 := refHexVal_eq_hexMapF ▸ hh3
        have hm4 : hexMapF d4 = some v4 := refHexVal_eq_hexMapF ▸ hh4
        have hdel4 : ∀ ch ∈ r4, ch.toNat ≠ 0x7f := fun ch hch =>
          hdel ch (by simp [List.mem_cons, hch])
        obtain ⟨l2, c2, ih⟩ := refString_fullLex r4 hrec hdel4 url pos
          (v0.push (Char.ofNat (((v1 <<< 4 ||| v2) <<< 4 ||| v3) <<< 4 ||| v4)))
          l (c + 1 + 1 + 1 + 1 + 1 + 1)
        refine ⟨l2, c2, ?_⟩
        simp [addPositionAux, if_neg hd1, if_neg hd2, if_neg hd3, if_neg hd4,
          fullLex_cons, lexNext, stepEvents, hm1, hm2, hm3, hm4, isControl]
        rw [ih, push_mk]
      · rw [if_neg he] at h
        split at h
        rotate_left
        · exact Option.noConfusion h
        rename_i d hesc
        rw [Option.map_eq_some'] at h
        obtain ⟨⟨s4, r4'⟩, hrec, hmk⟩ := h
        simp only [Prod.mk.injEq] at hmk
        obtain ⟨rfl, rfl⟩ := hmk
        have hen := refEscape_ne_nl hesc
        have hem : escapeMapF e = some d := refEscape_escapeMapF hesc
        have hdel2 : ∀ ch ∈ r2, ch.toNat ≠ 0x7f := fun ch hch =>
          hdel ch (by simp [List.mem_cons, hch])
        obtain ⟨l2, c2, ih⟩ := refString_fullLex r2 hrec hdel2 url pos
          (v0.push d) l (c + 1 + 1)
        refine ⟨l2, c2, ?_⟩
        simp [addPositionAux, if_neg hen, fullLex_cons, lexNext,
          stepEvents, he, hem, isControl]
        rw [ih, push_mk]
    · -- ordinary character
      rw [Option.map_eq_some'] at h
      obtain ⟨⟨s4, r4'⟩, hrec, hmk⟩ := h
      simp only [Prod.mk.injEq] at hmk
      obtain ⟨rfl, rfl⟩ := hmk
      have hq7 : q.toNat ≠ 0x7f := hdel q (List.mem_cons_self q rest)
      have hqn : ¬q = '\n' := by
        rintro rfl
        exact h3 (by decide)
      have hctl : isControl q = false := by
        simp only [isControl, Bool.or_eq_false_iff, decide_eq_false_iff_not]
        omega
      have hdel2 : ∀ ch ∈ rest, ch.toNat ≠ 0x7f := fun ch hch =>
        hdel ch (List.mem_cons_of_mem _ hch)
      obtain ⟨l2, c2, ih⟩ := refString_fullLex rest hrec hdel2 url pos
        (v0.push q) l (c + 1)
      refine ⟨l2, c2, ?_⟩
      simp [addPositionAux, if_neg hqn, fullLex_cons,
        lexNext_strS_normal h1 h2 hctl, stepEvents]
      rw [ih, push_mk]

end JsonParser

namespace JsonParser
open Ref

theorem digitVal_ne {c : Char} {d : Nat} (h : digitVal c = some d) :
    ¬c = '+' ∧ ¬c = '-' ∧ ¬c = 'I' ∧ ¬c = '.' ∧ ¬c = 'e' ∧ ¬c = 'E' ∧ ¬c = '\n' := by
  refine ⟨?_, ?_, ?_, ?_, ?_, ?_, ?_⟩ <;> rintro rfl <;> simp [digitVal] at h

theorem digitVal_zero {d : Nat} (h : digitVal '0' = some d) : d = 0 := by
  simp [digitVal] at h
  omega

theorem takeDigits_cons_digit {c : Char} {d : Nat} (r : List Char)
    (h : digitVal c = some d) :
    takeDigits (c :: r) = (d :: (takeDigits r).1, (takeDigits r).2) := by
  rcases ht : takeDigits r with ⟨ds, rr⟩
  simp [takeDigits, h, ht]

theorem takeDigits_cons_not_digit {c : Char} (r : List Char)
    (h : digitVal c = none) : takeDigits (c :: r) = ([], c :: r) := by
  simp [takeDigits, h]

theorem sign_agree {cs : List Char} {neg : Bool} {c : Char} {r : List Char}
    {d : Nat} (hs : refSign cs = (neg, c :: r)) (hd : digitVal c = some d) :
    parseFloatSign cs = (neg, c :: r) := by
  cases cs with
  | nil => simp [refSign] at hs
  | cons c0 r0 =>
    simp only [refSign] at hs
    simp only [parseFloatSign]
    split_ifs at hs with hm
    · simp only [Prod.mk.injEq] at hs
      obtain ⟨rfl, rfl⟩ := hs
      subst hm
      simp
    · simp only [Prod.mk.injEq, List.cons.injEq] at hs
      obtain ⟨rfl, rfl, rfl⟩ := hs
      rw [if_neg (digitVal_ne hd).1, if_neg hm]

theorem take8_ne_infinity {c : Char} {r : List Char} {d : Nat}
    (hd : digitVal c = some d) : ¬((c :: r).take 8 = "Infinity".data) := by
  intro he
  have h8 : "Infinity".data = 'I' :: "nfinity".data := rfl
  rw [List.take_succ_cons, h8] at he
  injection he with he1 he2
  subst he1
  simp [digitVal] at hd

theorem refIntPart_takeDigits {c : Char} {d : Nat} {r : List Char}
    {intDs : List Nat} {cs2 : List Char}
    (hd : digitVal c = some d) (h : refIntPart c d r = some (intDs, cs2)) :
    takeDigits (c :: r) = (intDs, cs2) ∧ intDs ≠ [] := by
  by_cases hzero : c = '0'
  · subst hzero
    have hd0 := digitVal_zero hd
    subst hd0
    unfold refIntPart at h
    rw [if_pos rfl] at h
    cases r with
    | nil =>
      simp only [Option.some.injEq, Prod.mk.injEq] at h
      obtain ⟨rfl, rfl⟩ := h
      rw [takeDigits_cons_digit _ hd]
      exact ⟨rfl, by simp⟩
    | cons r0 rtail =>
      dsimp only at h
      rcases hx : digitVal r0 with _ | v
      · rw [if_neg (by simp [hx])] at h
        simp only [Option.some.injEq, Prod.mk.injEq] at h
        obtain ⟨rfl, rfl⟩ := h
        rw [takeDigits_cons_digit _ hd, takeDigits_cons_not_digit _ hx]
        exact ⟨rfl, by simp⟩
      · rw [if_pos (by simp [hx])] at h
        exact Option.noConfusion h
  · unfold refIntPart at h
    rw [if_neg hzero] at h
    rcases ht : takeDigits r with ⟨ds, r2⟩
    rw [ht] at h
    dsimp only at h
    simp only [Option.some.injEq, Prod.mk.injEq] at h
    obtain ⟨rfl, rfl⟩ := h
    rw [takeDigits_cons_digit _ hd, ht]
    exact ⟨rfl, by simp⟩

theorem refFracPart_parseFloatFrac {cs2 : List Char} {fracDs : List Nat}
    {cs3 : List Char} (h : refFracPart cs2 = some (fracDs, cs3)) :
    parseFloatFrac cs2 = (fracDs, cs3) := by
  unfold refFracPart at h
  unfold parseFloatFrac
  split at h
  · rename_i x r3
    split_ifs at h with hdot
    · rw [if_pos hdot]
      split at h
      · exact Option.noConfusion h
      · rename_i ds r4 heq
        simp only [Option.some.injEq, Prod.mk.injEq] at h
        obtain ⟨rfl, rfl⟩ := h
        exact heq
    · rw [if_neg hdot]
      simp only [Option.some.injEq, Prod.mk.injEq] at h
      obtain ⟨rfl, rfl⟩ := h
      rfl
  · simp only [Option.some.injEq, Prod.mk.injEq] at h
    obtain ⟨rfl, rfl⟩ := h
    rfl

theorem refExpPart_parseFloatExp {cs3 : List Char} {exp : Int}
    (h : refExpPart cs3 = some (exp, [])) : parseFloatExp cs3 = exp := by
  cases cs3 with
  | nil =>
    simp only [refExpPart, Option.some.injEq, Prod.mk.injEq] at h
    exact h.1
  | cons e r5 =>
    simp only [refExpPart] at h
    simp only [parseFloatExp]
    by_cases hee : e = 'e' ∨ e = 'E'
    · rw [if_pos hee] at h
      rw [if_pos hee]
      rcases hes : expSign r5 with ⟨eneg, r6⟩
      rw [hes] at h
      dsimp only at h ⊢
      rcases ht : takeDigits r6 with ⟨_ | ⟨d0, ds0⟩, r7⟩
      · rw [ht] at h
        dsimp only at h
        exact Option.noConfusion h
      · rw [ht] at h
        dsimp only at h ⊢
        simp only [Option.some.injEq, Prod.mk.injEq] at h
        exact h.1
    · rw [if_neg hee] at h
      simp at h

theorem refNumber_parseFloat {cs : List Char} {q : ℚ}
    (h : refNumber cs = some (q, [])) :
    parseFloatQ cs = some (.finite q) := by
  unfold refNumber at h
  rcases hs : refSign cs with ⟨neg, cs1⟩
  rw [hs] at h
  dsimp only at h
  cases cs1 with
  | nil => exact Option.noConfusion h
  | cons c r =>
    dsimp only at h
    rcases hd : digitVal c with _ | d
    · rw [hd] at h
      exact Option.noConfusion h
    · rw [hd] at h
      dsimp only at h
      rcases hi : refIntPart c d r with _ | ⟨intDs, cs2⟩
      · rw [hi] at h
        exact Option.noConfusion h
      · rw [hi] at h
        dsimp only at h
        rcases hf : refFracPart cs2 with _ | ⟨fracDs, cs3⟩
        · rw [hf] at h
          exact Option.noConfusion h
        · rw [hf] at h
          dsimp only at h
          rcases he : refExpPart cs3 with _ | ⟨exp, cs4⟩
          · rw [he] at h
            exact Option.noConfusion h
          · rw [he] at h
            dsimp only at h
            simp only [Option.some.injEq, Prod.mk.injEq] at h
            obtain ⟨hq, hcs4⟩ := h
            subst hcs4
            obtain ⟨hTD, hne⟩ := refIntPart_takeDigits hd hi
            have hsign := sign_agree hs hd
            unfold parseFloatQ
            rw [hsign]
            dsimp only
            rw [if_neg (take8_ne_infinity hd)]
            rw [hTD]
            dsimp only
            rw [refFracPart_parseFloatFrac hf]
            dsimp only
            rw [if_neg (fun hc => hne hc.1)]
            rw [refExpPart_parseFloatExp he, hq]

theorem data_mk_eq {chunk : List Char} {s : String}
    (he : String.mk chunk = s) : chunk = s.data :=
  congrArg String.data he

theorem refClassify_getResultValue {chunk : List Char} {v : JsonPrim}
    (h : refClassify chunk = some v) (url : String) (pos : FilePosition) :
    getResultValue url pos (String.mk chunk) = (v, []) := by
  unfold refClassify at h
  split_ifs at h with h1 h2 h3
  · subst h1
    simp only [Option.some.injEq] at h
    subst h
    rfl
  · subst h2
    simp only [Option.some.injEq] at h
    subst h
    rfl
  · subst h3
    simp only [Option.some.injEq] at h
    subst h
    rfl
  · rcases hn : refNumber chunk with _ | ⟨q, _ | ⟨c0, cr⟩⟩
    · rw [hn] at h
      exact Option.noConfusion h
    · rw [hn] at h
      dsimp only at h
      simp only [Option.some.injEq] at h
      subst h
      unfold getResultValue
      rw [if_neg (fun he => h1 (data_mk_eq he)),
          if_neg (fun he => h2 (data_mk_eq he)),
          if_neg (fun he => h3 (data_mk_eq he))]
      have hp : parseFloatQ (String.mk chunk).data = some (.finite q) :=
        refNumber_parseFloat hn
      rw [hp]
    · rw [hn] at h
      dsimp only at h
      exact Option.noConfusion h

end JsonParser

namespace JsonParser
open Ref

theorem addPositionAux_cons (l c : Nat) (ch : Char) (rest : List Char) :
    addPositionAux l c (ch :: rest) =
      ⟨ch, ⟨l, c⟩⟩ :: (if ch = '\n' then addPositionAux (l + 1) 1 rest
                       else addPositionAux l (c + 1) rest) := rfl

theorem jsonValue_ne_nl {c : Char} (h : isJsonValueChar c = true) : ¬c = '\n' := by
  rintro rfl
  exact absurd h (by decide)

theorem mem_takeWhile_pred {p : Char → Bool} :
    ∀ (l : List Char) {x : Char}, x ∈ l.takeWhile p → p x = true
  | a :: t, x, hx => by
    rw [List.takeWhile_cons] at hx
    split_ifs at hx with hpa
    · rcases List.mem_cons.mp hx with rfl | hx2
      · exact hpa
      · exact mem_takeWhile_pred t hx2
    · simp at hx
  | [], x, hx => by simp at hx

theorem mem_dropWhile_mem {p : Char → Bool} :
    ∀ (l : List Char) {x : Char}, x ∈ l.dropWhile p → x ∈ l
  | a :: t, x, hx => by
    rw [List.dropWhile_cons] at hx
    split_ifs at hx with hpa
    · exact List.mem_cons_of_mem _ (mem_dropWhile_mem t hx)
    · exact hx
  | [], x, hx => by simp at hx

theorem dropWhile_head_false {p : Char → Bool} :
    ∀ (l : List Char) {y : Char} {ys : List Char},
      l.dropWhile p = y :: ys → p y = false
  | a :: t, y, ys, h => by
    rw [List.dropWhile_cons] at h
    split_ifs at h with hpa
    · exact dropWhile_head_false t h
    · injection h with h1 _
      subst h1
      simpa using hpa
  | [], y, ys, h => by simp at h

theorem empty_append_str (x : String) : "" ++ x = x := by
  apply String.ext
  simp

theorem singleton_append_mk (c : Char) (l : List Char) :
    String.singleton c ++ String.mk l = String.mk (c :: l) := by
  apply String.ext
  simp [String.singleton]

theorem lexNext_valS_push {ch : Char} (hch : isJsonValueChar ch = true)
    (url : String) (pos : FilePosition) (v0 : String) (p : FilePosition) :
    lexNext url (.valS pos v0) ⟨ch, p⟩ = ⟨[], [], .valS pos (v0.push ch)⟩ := by
  simp [lexNext, hch]

theorem valS_accum :
    ∀ (chunk : List Char), (∀ ch ∈ chunk, isJsonValueChar ch = true) →
      ∀ (rest2 : List Char) (url : String) (pos : FilePosition) (v0 : String)
        (l c : Nat),
        ∃ l2 c2,
          fullLex url (.valS pos v0) (addPositionAux l c (chunk ++ rest2))
            = fullLex url (.valS pos (v0 ++ String.mk chunk))
                (addPositionAux l2 c2 rest2)
  | [], _, rest2, url, pos, v0, l, c => ⟨l, c, by simp [append_mk_nil]⟩
  | ch :: chtl, hall, rest2, url, pos, v0, l, c => by
    have hch : isJsonValueChar ch = true := hall ch (by simp)
    obtain ⟨l2, c2, ih⟩ := valS_accum chtl (fun x hx => hall x (by simp [hx]))
      rest2 url pos (v0.push ch) l (c + 1)
    refine ⟨l2, c2, ?_⟩
    rw [List.cons_append, addPositionAux_cons, if_neg (jsonValue_ne_nl hch),
      fullLex_cons, lexNext_valS_push hch]
    simp only [stepEvents, List.map_nil, List.nil_append, List.append_nil]
    rw [ih, push_mk]

theorem valS_finalize {d : Char} (hd : isJsonValueChar d = false)
    {url : String} {pos dp : FilePosition} {v : String} {pv : JsonPrim}
    (hv : getResultValue url pos v = (pv, []))
    (herr : (wsNext url ⟨d, dp⟩).errors = [])
    (pcs : List CharAndPosition) :
    fullLex url (.valS pos v) (⟨d, dp⟩ :: pcs)
      = .tok (.value pv pos) :: fullLex url .ws (⟨d, dp⟩ :: pcs) := by
  rw [fullLex_cons, fullLex_cons]
  have hws : lexNext url .ws ⟨d, dp⟩ = wsNext url ⟨d, dp⟩ := rfl
  rcases hw : wsNext url ⟨d, dp⟩ with ⟨toks, errs, st⟩
  have herr2 : errs = [] := by
    rw [hw] at herr
    exact herr
  subst herr2
  have hstep : lexNext url (.valS pos v) ⟨d, dp⟩
      = ⟨.value pv pos :: toks, [], st⟩ := by
    simp [lexNext, hd, hv, hw]
  rw [hstep, hws, hw]
  simp [stepEvents]

theorem refLexLoop_head_class {f : Nat} {d : Char} {r : List Char}
    {ts : List RefTok} (h : refLexLoop f (d :: r) = some ts) :
    isWhiteSpaceChar d = true ∨ isSymbolChar d = true ∨ d = '"'
      ∨ isJsonValueChar d = true := by
  cases f with
  | zero => exact Option.noConfusion h
  | succ f =>
    simp only [refLexLoop] at h
    split_ifs at h with h1 h2 h3 h4
    · exact Or.inl h1
    · exact Or.inr (Or.inl h2)
    · exact Or.inr (Or.inr (Or.inl h3))
    · exact Or.inr (Or.inr (Or.inr h4))

theorem refLex_fullLex :
    ∀ (fuel : Nat) (cs : List Char) {ts : List RefTok},
      refLexLoop fuel cs = some ts →
      (∀ ch ∈ cs, ch.toNat ≠ 0x7f) →
      ∀ (url : String) (l c : Nat),
        ∃ T : List JsonToken,
          fullLex url .ws (addPositionAux l c cs) = T.map .tok ∧
          T.map strip = ts
  | fuel, [], ts, h, _, url, l, c => by
    simp only [refLexLoop, Option.some.injEq] at h
    subst h
    exact ⟨[], by simp [addPositionAux, fullLex, lexFold, doneEvents, lexDone], rfl⟩
  | 0, c0 :: rest, ts, h, _, url, l, c => by
    simp only [refLexLoop] at h
    exact Option.noConfusion h
  | fuel + 1, c0 :: rest, ts, h, hdel, url, l, c => by
    obtain ⟨l', c', htail⟩ :
        ∃ l' c', (if c0 = '\n' then addPositionAux (l + 1) 1 rest
                  else addPositionAux l (c + 1) rest)
          = addPositionAux l' c' rest := by
      split_ifs
      · exact ⟨l + 1, 1, rfl⟩
      · exact ⟨l, c + 1, rfl⟩
    have hdelrest : ∀ ch ∈ rest, ch.toNat ≠ 0x7f :=
      fun x hx => hdel x (by simp [hx])
    rw [addPositionAux_cons, htail]
    simp only [refLexLoop] at h
    split_ifs at h with hws hsym hquote hval
    · -- whitespace: the machine consumes silently and stays in ws
      obtain ⟨T, hT, hstrip⟩ := refLex_fullLex fuel rest h hdelrest url l' c'
      refine ⟨T, ?_, hstrip⟩
      rw [fullLex_cons]
      have hstep : lexNext url .ws ⟨c0, ⟨l, c⟩⟩ = ⟨[], [], .ws⟩ :=
        wsNext_ws hws url ⟨l, c⟩
      rw [hstep]
      simpa [stepEvents] using hT
    · -- symbol: a symbol token is yielded and the machine stays in ws
      rcases hrec : refLexLoop fuel rest with _ | ts2
      · rw [hrec] at h
        exact Option.noConfusion h
      rw [hrec] at h
      dsimp only at h
      simp only [Option.some.injEq] at h
      subst h
      obtain ⟨T, hT, hstrip⟩ := refLex_fullLex fuel rest hrec hdelrest url l' c'
      refine ⟨.sym c0 ⟨l, c⟩ :: T, ?_, ?_⟩
      · rw [fullLex_cons]
        have hstep : lexNext url .ws ⟨c0, ⟨l, c⟩⟩ = ⟨[.sym c0 ⟨l, c⟩], [], .ws⟩ :=
          wsNext_sym hsym url ⟨l, c⟩
        rw [hstep]
        simpa [stepEvents] using hT
      · simp [hstrip, strip]
    · -- opening quote: enter the string state, then the string simulation
      subst hquote
      rcases hstr : refString rest with _ | ⟨s, r⟩
      · rw [hstr] at h
        exact Option.noConfusion h
      rw [hstr] at h
      dsimp only at h
      rcases hrec : refLexLoop fuel r with _ | ts2
      · rw [hrec] at h
        exact Option.noConfusion h
      rw [hrec] at h
      dsimp only at h
      simp only [Option.some.injEq] at h
      subst h
      have hdelr : ∀ ch ∈ r, ch.toNat ≠ 0x7f :=
        fun x hx => hdelrest x (refString_sublist rest hstr x hx)
      obtain ⟨l2, c2, hstring⟩ :=
        refString_fullLex rest hstr hdelrest url ⟨l, c⟩ "" l' c'
      obtain ⟨T, hT, hstrip⟩ := refLex_fullLex fuel r hrec hdelr url l2 c2
      refine ⟨.value (.str (String.mk s)) ⟨l, c⟩ :: T, ?_, ?_⟩
      · rw [fullLex_cons]
        have hstep : lexNext url .ws ⟨'"', ⟨l, c⟩⟩ = ⟨[], [], .strS ⟨l, c⟩ ""⟩ :=
          wsNext_quote url ⟨l, c⟩
        rw [hstep]
        simp only [stepEvents, List.map_nil, List.nil_append, List.append_nil]
        rw [hstring, hT, empty_append_str]
        rfl
      · simp [hstrip, strip]
    · -- a value-character run: accumulate, then finalize
      rcases hcls : refClassify (c0 :: rest.takeWhile isJsonValueChar) with _ | v
      · rw [hcls] at h
        exact Option.noConfusion h
      rw [hcls] at h
      dsimp only at h
      rcases hrec : refLexLoop fuel (rest.dropWhile isJsonValueChar) with _ | ts2
      · rw [hrec] at h
        exact Option.noConfusion h
      rw [hrec] at h
      dsimp only at h
      simp only [Option.some.injEq] at h
      subst h
      have hstep : lexNext url .ws ⟨c0, ⟨l, c⟩⟩
          = ⟨[], [], .valS ⟨l, c⟩ (String.singleton c0)⟩ :=
        wsNext_val hval url ⟨l, c⟩
      have hsplit : rest.takeWhile isJsonValueChar ++ rest.dropWhile isJsonValueChar
          = rest := List.takeWhile_append_dropWhile isJsonValueChar rest
      obtain ⟨l2, c2, haccum⟩ := valS_accum (rest.takeWhile isJsonValueChar)
        (fun x hx => mem_takeWhile_pred rest hx)
        (rest.dropWhile isJsonValueChar) url ⟨l, c⟩ (String.singleton c0) l' c'
      have hbuf : String.singleton c0 ++ String.mk (rest.takeWhile isJsonValueChar)
          = String.mk (c0 :: rest.takeWhile isJsonValueChar) :=
        singleton_append_mk _ _
      have hval2 := refClassify_getResultValue hcls url ⟨l, c⟩
      rcases hdrop : rest.dropWhile isJsonValueChar with _ | ⟨d, r2⟩
      · -- the run reaches the end of the input: done finalizes the buffer
        rw [hdrop] at hrec
        simp only [refLexLoop, Option.some.injEq] at hrec
        subst hrec
        refine ⟨[.value v ⟨l, c⟩], ?_, by simp [strip]⟩
        rw [fullLex_cons, hstep]
        simp only [stepEvents, List.map_nil, List.nil_append, List.append_nil]
        conv_lhs => rw [← hsplit]
        rw [haccum, hbuf, hdrop]
        simp [fullLex, lexFold, addPositionAux, doneEvents, lexDone, hval2]
      · -- the run is ended by a delimiter: finalize, then rescan it from ws
        have hdfalse : isJsonValueChar d = false := dropWhile_head_false rest hdrop
        have hderr : (wsNext url ⟨d, ⟨l2, c2⟩⟩).errors = [] := by
          rw [hdrop] at hrec
          rcases refLexLoop_head_class hrec with hx | hx | hx | hx
          · rw [wsNext_ws hx]
          · rw [wsNext_sym hx]
          · subst hx
            rw [wsNext_quote]
          · rw [hdfalse] at hx
            exact Bool.noConfusion hx
        rw [hdrop] at hrec
        have hdeld : ∀ ch ∈ d :: r2, ch.toNat ≠ 0x7f := fun x hx =>
          hdelrest x
            (@mem_dropWhile_mem isJsonValueChar rest x (by rw [hdrop]; exact hx))
        obtain ⟨T, hT, hstrip⟩ := refLex_fullLex fuel (d :: r2) hrec hdeld url l2 c2
        refine ⟨.value v ⟨l, c⟩ :: T, ?_, ?_⟩
        · rw [fullLex_cons, hstep]
          simp only [stepEvents, List.map_nil, List.nil_append, List.append_nil]
          conv_lhs => rw [← hsplit]
          rw [haccum, hbuf, hdrop, addPositionAux_cons]
          rw [valS_finalize hdfalse hval2 hderr]
          rw [← addPositionAux_cons, hT]
          rfl
        · simp [hstrip, strip]

end JsonParser

namespace JsonParser
open Ref

theorem runP_toks (url : String) :
    ∀ (T : List JsonToken) (st : PState) (tv : Option Json),
      runP url st tv (T.map .tok)
        = (partialValue (runToks url st tv T).1 (runToks url st tv T).2.1,
           (runToks url st tv T).2.2 ++ parserDone url (runToks url st tv T).1)
  | [], st, tv => by simp [runP, runToks]
  | t :: rest, st, tv => by
    rcases hps : parseStep url st tv t with ⟨st2, tv2, errs⟩
    have ih := runP_toks url rest st2 tv2
    rcases hrt : runToks url st2 tv2 rest with ⟨st3, tv3, errs2⟩
    rw [hrt] at ih
    cases st <;>
      simp [runP, runToks, hps, hrt, ih, List.append_assoc]

/-- C1, two counterexamples to the original claim.  First, the
one-character string containing U+007F (DEL) is a valid JSON document —
the reference decoder accepts it — yet `parse` reports an `invalid
symbol` error for the DEL character (the source's control-character test
`c <= '\x1f' || c == '\x7f'` flags it inside strings, where RFC 8259
allows it).  Second, on the valid document `\x7b"__proto__":0\x7d` the
source's member assignment `os.value[name] = v` hits the inherited
`Object.prototype.__proto__` accessor and creates no own property, so
`parse` returns the empty object (with zero errors) while the reference
decoder — `JSON.parse` uses `CreateDataProperty` — yields an object with
the `__proto__` member; the two values are not deep-equal. -/
theorem parse_valid_json_cex :
    (Ref.refDecode (String.mk ['"', Char.ofNat 0x7f, '"'])
        = some (.str (String.mk [Char.ofNat 0x7f]))
      ∧ parseFull "u" (String.mk ['"', Char.ofNat 0x7f, '"'])
        = (.str (String.mk [Char.ofNat 0x7f]),
           [lexErr "u" ⟨1, 2⟩ (String.mk [Char.ofNat 0x7f]) .invalidSymbol]))
    ∧ Ref.refDecode "\x7b\"__proto__\":0\x7d"
        = some (.obj [("__proto__", .num (.finite 0))])
      ∧ parseFull "u" "\x7b\"__proto__\":0\x7d" = (.obj [], []) := by
  exact ⟨⟨rfl, rfl⟩, rfl, rfl⟩

/-- C1 (amended): for every input text that is a valid JSON document,
contains no U+007F character, and whose token sequence contains no
string token `"__proto__"` (in particular, no object member is named
`__proto__`), `parse` invokes the error callback zero times and returns
a value deep-equal to the reference decoder's output. -/
theorem parse_valid_json_matches_reference (url : String) {s : String} {v : Json}
    (hdec : Ref.refDecode s = some v)
    (hdel : ∀ ch ∈ s.data, ch.toNat ≠ 0x7f)
    (hproto : Ref.RefTok.val (.str "__proto__") ∉ (Ref.refLex s.data).getD []) :
    parseFull url s = (v, []) := by
  unfold Ref.refDecode at hdec
  rcases hlex : refLex s.data with _ | toks
  · rw [hlex] at hdec
    exact Option.noConfusion hdec
  rw [hlex] at hdec
  dsimp only at hdec
  rcases hval : refTokVal (3 * toks.length + 3) toks with _ | ⟨v0, _ | ⟨x, xs⟩⟩
  · rw [hval] at hdec
    exact Option.noConfusion hdec
  · rw [hval] at hdec
    dsimp only at hdec
    simp only [Option.some.injEq] at hdec
    subst hdec
    have hlex2 : refLexLoop s.data.length s.data = some toks := hlex
    rw [hlex] at hproto
    simp only [Option.getD_some] at hproto
    obtain ⟨T, hT, hstrip⟩ := refLex_fullLex s.data.length s.data hlex2 hdel url 1 1
    have hpfT : ∀ t ∈ T, strip t ≠ Ref.RefTok.val (.str "__proto__") := by
      intro t ht heq
      apply hproto
      rw [← hstrip, ← heq]
      exact List.mem_map_of_mem strip ht
    rw [← hstrip] at hval
    obtain ⟨T1, T2, hTsplit, hT2, hrun, -⟩ :=
      (refTok_machine_sim url (3 * (T.map strip).length + 3)).1 T v0 [] .top none
        hpfT hval
    have hT2nil : T2 = [] := List.map_eq_nil_iff.mp hT2
    subst hT2nil
    rw [List.append_nil] at hTsplit
    rw [← hTsplit] at hrun
    unfold parseFull
    have hevents : tokenizeEvents url s = T.map .tok := hT
    rw [hevents, runP_toks url T (.value .top) none, hrun]
    rfl
  · rw [hval] at hdec
    dsimp only at hdec
    exact Option.noConfusion hdec

theorem parse_valid_json_matches_reference_witness :
    parseFull "u" "[1,true]" = (.arr [.num (.finite 1), .bool true], []) :=
  parse_valid_json_matches_reference "u" (by rfl) (by decide) (by decide)

end JsonParser
